import Mathlib

/-!
Shallow embedding of the kraken convergence engine and peer mesh layer.

The JavaScript sources are embedded as executable Lean definitions:

* `NextState` with `propose` / `advance` / `evaluate` embeds the state
  convergence protocol class `NextState`.
* `DG.Graph` with `addEdge` / `removeNode` / `prune` embeds the class
  `DivergingGraph` (JS `Map` / `Set` state is modelled as insertion-ordered
  association lists, the `#t` counter and the dispatched "advance" events are
  explicit fields, and a thrown exception is modelled as an `Option JsErr`
  paired with the state as mutated up to the throw).
* `PG.PeerConnection` / `PG.PeerGroup` embed the mesh negotiation layer
  (`PeerConnection`, `PeerGroup`); the browser RTC objects they drive are
  modelled at their interface (signaling state, channel ready state, and
  boolean oracles for the outcome of the awaited browser calls).

The JS `time` counters are embedded as `Int`, the lottery draws as `Rat`.
-/

/-! ## NextState: the proposal evaluation protocol -/

namespace NS

/-- Result codes of `NextState.evaluate` (the seven static class constants). -/
def ADVANCE : Nat := 0
def ADVANCE_SHIFT : Nat := 1
def FAST_FORWARD : Nat := 2
def CONFIRM : Nat := 3
def LOTTERY_LOST : Nat := 4
def ROCK : Nat := 5
def ONE_DIRECTION : Nat := 6

/-- The `(state, time, lottery)` triple a `NextState` instance holds. -/
structure NextState where
  state : String
  time : Int
  lottery : Rat
deriving Repr, DecidableEq

/-- A proposal as produced by `NextState.propose`. -/
structure Proposal where
  next : String
  state : String
  time : Int
  lottery : Rat
deriving Repr, DecidableEq

/-- The `{accept, reason, code}` record returned by `NextState.evaluate`. -/
structure EvalResult where
  accept : Bool
  reason : String
  code : Nat
deriving Repr, DecidableEq

/-- `NextState.advance`: replace the triple with the accepted proposal's
`{next, time, lottery}`. -/
def NextState.advance (_s : NextState) (p : Proposal) : NextState :=
  { state := p.next, time := p.time, lottery := p.lottery }

/-- `NextState.propose`: the next proposal. The JS method draws
`Math.random()` for the lottery; the draw is passed as the argument `l`. -/
def NextState.propose (s : NextState) (next : String) (l : Rat) : Proposal :=
  { next := next, state := s.state, time := s.time + 1, lottery := l }

/-- `NextState.evaluate`: classify an incoming proposal against the local
triple.  A literal transcription of the `if` cascade of the JS method. -/
def NextState.evaluate (s : NextState) (p : Proposal) : EvalResult :=
  if p.time > s.time then
    if p.time > s.time + 1 then
      { accept := true
        reason := "Skip " ++ toString (p.time - s.time) ++ " steps."
        code := FAST_FORWARD }
    else if p.state = s.state then
      { accept := true, reason := "All good.", code := ADVANCE }
    else
      { accept := true
        reason := "Input source (" ++ p.state ++ ") != local state ("
          ++ s.state ++ ")."
        code := ADVANCE_SHIFT }
  else if p.time = s.time then
    if p.next = s.state then
      { accept := false
        reason := "Transition confirms local state. No need to change."
        code := CONFIRM }
    else if p.lottery > s.lottery then
      { accept := true
        reason := "Their ticket won (" ++ toString p.lottery ++ " > "
          ++ toString s.lottery ++ ")."
        code := LOTTERY_LOST }
    else
      { accept := false, reason := "They got scissors, we got rock."
        code := ROCK }
  else
    { accept := false
      reason := "Remote is " ++ toString (s.time - p.time) ++ " steps behind."
      code := ONE_DIRECTION }

end NS

/-! ## DivergingGraph: the branch-tracking history -/

namespace DG

/-- A node key of the graph.  `none` embeds the JS `null` key of the
always-present sentinel root. -/
abbrev Key := Option String

/-- Abnormal outcomes of the graph methods.  `typeError` is a JS `TypeError`
(property access on `undefined`), `constAssign` is the `TypeError` raised by
assigning to a `const` binding, `outOfFuel` marks a backward walk that would
never terminate in JS (a source cycle). -/
inductive JsErr
  | protocolViolation
  | typeError
  | constAssign
  | outOfFuel
deriving Repr, DecidableEq

/-- The per-node record `{source, distance, _t, data}` stored in `nodeInfo`.
`none` embeds both JS `null` and a missing (`undefined`) field. -/
structure Info where
  source : Option String
  distance : Int
  t : Nat
  data : Option String
deriving Repr, DecidableEq

/-- JS truthiness of the stored `source` value: `undefined`, `null` and the
empty string are falsy, every other string is truthy. -/
def truthySource : Option String → Bool
  | none => false
  | some s => s ≠ ""

/-- Insertion-ordered association list embedding a JS `Map` with keys of
type `κ` (`Map.get`). -/
def aget [DecidableEq κ] : List (κ × α) → κ → Option α
  | [], _ => none
  | p :: rest, k => if p.1 = k then some p.2 else aget rest k

/-- `Map.has`. -/
def ahas [DecidableEq κ] (m : List (κ × α)) (k : κ) : Bool :=
  (aget m k).isSome

/-- `Map.set`: overwrite in place when the key is present (keys are unique in
a `Map`, so replacing the first occurrence is exact), append otherwise. -/
def aset [DecidableEq κ] : List (κ × α) → κ → α → List (κ × α)
  | [], k, v => [(k, v)]
  | p :: rest, k, v =>
    if p.1 = k then (k, v) :: rest else p :: aset rest k v

/-- `Map.delete` (of the unique occurrence). -/
def adel [DecidableEq κ] : List (κ × α) → κ → List (κ × α)
  | [], _ => []
  | p :: rest, k => if p.1 = k then rest else p :: adel rest k

abbrev NodeMap := List (Key × Info)

/-- `Set.add` on the `heads` set: append if absent. -/
def sadd (s : List String) (x : String) : List String :=
  if x ∈ s then s else s ++ [x]

/-- The info record `{distance: -1, _t: 0}` of the sentinel `null` node. -/
def sentinelInfo : Info :=
  { source := none, distance := -1, t := 0, data := none }

/-- The full observable state of a `DivergingGraph`: `nodeInfo`, `heads`, the
private `#furthestNode`, the private counter `#t`, and the list of nodes
carried by the dispatched "advance" events. -/
structure Graph where
  nodeInfo : NodeMap
  heads : List String
  furthestNode : Key
  t : Nat
  events : List Key
deriving Repr, DecidableEq

/-- The `DivergingGraph` constructor. -/
def Graph.init : Graph :=
  { nodeInfo := [(none, sentinelInfo)]
    heads := []
    furthestNode := none
    t := 1
    events := [] }

/-- `get size`: the map size minus the sentinel entry. -/
def Graph.size (g : Graph) : Int := (g.nodeInfo.length : Int) - 1

/-- The `furthestNode` setter: dispatches an "advance" event exactly when the
assigned node differs from the current one. -/
def setFurthest (g : Graph) (node : Key) : Graph :=
  if node = g.furthestNode then g
  else { g with furthestNode := node, events := g.events ++ [node] }

/-- One step of the `reduce` comparators in `addEdge` and `removeNode`:
`la > lb ? a : la < lb ? b : ta < tb ? a : b`.  When either node is absent
from the map every JS comparison against `undefined` is false and the chain
falls through to `b`. -/
def pickBetter (m : NodeMap) (a b : Key) : Key :=
  match aget m a, aget m b with
  | some ia, some ib =>
    if ia.distance > ib.distance then a
    else if ia.distance < ib.distance then b
    else if ia.t < ib.t then a
    else b
  | _, _ => b

/-- A backward walk `while (!memo.has(node)) {path.push(node); node =
nodeInfo.get(node).source}` followed by reading the memoized value at the
stopping node.  Reading `.source` of an absent node is a `TypeError`; a
source cycle never terminates in JS, embedded as `outOfFuel`. -/
def walkBack (m : NodeMap) (memo : Key → Option α) :
    Nat → Key → List Key → Except JsErr (List Key × α)
  | 0, _, _ => .error .outOfFuel
  | fuel + 1, node, path =>
    match memo node with
    | some v => .ok (path, v)
    | none =>
      match aget m node with
      | none => .error .typeError
      | some i => walkBack m memo fuel i.source (path ++ [node])

/-- The graft traversal of `addEdge`: classify every node reachable backward
from a head as following `target` (true) or the sentinel root (false),
memoizing whole walked paths. -/
def computeFollows (m : NodeMap) (heads : List String) (target : String) :
    Except JsErr (List (Key × Bool)) :=
  heads.foldlM
    (fun follows h => do
      let (path, value) ←
        walkBack m (fun k => aget follows k) (m.length + 1) (some h) []
      return path.foldl (fun f n => aset f n value) follows)
    [(some target, true), (none, false)]

/-- `updatedNodes.forEach`: rebuild each followed node's record with
`distance` increased by `targetDistance` (reading `.distance` of an absent
node would be a `TypeError`). -/
def bumpAll (m : NodeMap) (nodes : List Key) (td : Int) :
    Except JsErr NodeMap :=
  nodes.foldlM
    (fun m' n =>
      match aget m' n with
      | none => .error .typeError
      | some i => .ok (aset m' n { i with distance := i.distance + td }))
    m

/-- The first block of `addEdge`: a known source is removed from the heads
copy (committed to `this.heads`), an unknown source is inserted as a fresh
path root consuming one `#t` tick. -/
def sourceStep (g : Graph) (source : String) : Graph :=
  if ahas g.nodeInfo (some source) then
    { g with heads := g.heads.erase source }
  else
    { g with
      nodeInfo := aset g.nodeInfo (some source)
        { source := none, distance := 0, t := g.t, data := none }
      t := g.t + 1 }

/-- The graft branch of `addEdge` (an existing target): classify the paths,
raise every followed node's distance, recompute the furthest node over the
updated nodes and the previous furthest node, and finally link the target to
its new source (`oldF` is the furthest node as read at method entry). -/
def addEdgeGraft (g1 : Graph) (oldF : Key) (source target : String)
    (d : Option String) (targetDistance : Int) : Graph × Option JsErr :=
  match computeFollows g1.nodeInfo g1.heads target with
  | .error e => (g1, some e)
  | .ok follows =>
    let updatedNodes := (follows.filter (·.2)).map (·.1)
    match bumpAll g1.nodeInfo updatedNodes targetDistance with
    | .error e => (g1, some e)
    | .ok ni2 =>
      let newF := updatedNodes.foldl (pickBetter ni2) oldF
      let g2 := setFurthest { g1 with nodeInfo := ni2 } newF
      match aget g2.nodeInfo (some target) with
      | none => (g2, some .typeError)
      | some ti =>
        ({ g2 with
            nodeInfo := aset g2.nodeInfo (some target)
              { ti with source := some source, data := d } }, none)

/-- The new-target branch of `addEdge`: insert the node, make it a head, and
advance the furthest node when the new distance strictly exceeds that of the
furthest node read at method entry (`oldF`). -/
def addEdgeNew (g1 : Graph) (oldF : Key) (source target : String)
    (d : Option String) (targetDistance : Int) : Graph × Option JsErr :=
  let ni2 := aset g1.nodeInfo (some target)
    { source := some source, distance := targetDistance, t := g1.t, data := d }
  let g2 := { g1 with
    nodeInfo := ni2, t := g1.t + 1, heads := sadd g1.heads target }
  match aget ni2 oldF with
  | none => (g2, some .typeError)
  | some fi =>
    if targetDistance > fi.distance then
      (setFurthest g2 (some target), none)
    else
      (g2, none)

/-- `DivergingGraph.addEdge(source, target, data)`.  Returns the state as
mutated up to normal completion or up to the thrown exception, paired with
the exception if one was thrown. -/
def addEdge (g : Graph) (source target : String) (d : Option String) :
    Graph × Option JsErr :=
  let g1 := sourceStep g source
  match aget g1.nodeInfo (some source) with
  | none => (g1, some .typeError)
  | some si =>
    let targetDistance := si.distance + 1
    match aget g1.nodeInfo (some target) with
    | some cti =>
      -- Link into an existing path: must be into that path's start.
      if truthySource cti.source ∨ cti.distance ≠ 0 then
        (g1, some .protocolViolation)
      else
        addEdgeGraft g1 g.furthestNode source target d targetDistance
    | none =>
      addEdgeNew g1 g.furthestNode source target d targetDistance

/-- The orphaning pass of `removeNode`: clear a `source` equal to the
removed key. -/
def clearSrc (target : String) (i : Info) : Info :=
  if i.source = some target then { i with source := none } else i

/-- `DivergingGraph.removeNode(target)`: delete the node, orphan its
children, and when the furthest node was removed recompute it over all
remaining keys starting from the removed node's former source. -/
def removeNode (g : Graph) (target : String) : Graph :=
  let source := (aget g.nodeInfo (some target)).bind (·.source)
  let ni := adel g.nodeInfo (some target)
  let ni2 := ni.map fun p => (p.1, clearSrc target p.2)
  let g1 := { g with nodeInfo := ni2 }
  if some target = g.furthestNode then
    setFurthest g1 ((ni2.map (·.1)).foldl (pickBetter ni2) source)
  else
    g1

/-- The score pass of `prune`: per head, walk backward to the first scored
ancestor, then fold the recurrence `score = Math.max(score - (distance - 1),
_t) + distance` forward over the reversed path.  The computed scores are
never read afterwards. -/
def computeScores (m : NodeMap) (heads : List String) :
    Except JsErr (List (Key × Int)) :=
  match aget m none with
  | none => .error .typeError
  | some nullInfo =>
    heads.foldlM
      (fun scores h => do
        let (path, score0) ←
          walkBack m (fun k => aget scores k) (m.length + 1) (some h) []
        let st ← path.reverse.foldlM
          (fun (st : List (Key × Int) × Int) n =>
            match aget m n with
            | none => Except.error JsErr.typeError
            | some i =>
              let sc := max (st.2 - (i.distance - 1)) (i.t : Int) + i.distance
              Except.ok (aset st.1 n sc, sc))
          (scores, score0)
        return st.1)
      [(none, nullInfo.distance + (nullInfo.t : Int))]

/-- Stable ascending insertion by `_t` (JS `sort` with comparator `ta - tb`
is stable). -/
def insertByT (p : Key × Info) : NodeMap → NodeMap
  | [] => [p]
  | q :: rest =>
    if q.2.t ≤ p.2.t then q :: insertByT p rest else p :: q :: rest

/-- `[...nodeInfo].sort(([a, {_t: ta}], [b, {_t: tb}]) => ta - tb)`. -/
def sortByT : NodeMap → NodeMap
  | [] => []
  | p :: rest => insertByT p (sortByT rest)

/-- `toSpliced(1, cnt)`: keep the first entry, drop the next `cnt`. -/
def toSpliced1 (m : NodeMap) (cnt : Nat) : NodeMap :=
  m.take 1 ++ m.drop (1 + cnt)

/-- `DivergingGraph.prune(maxSize)`.  The score pass only fills a local map.
When trimming is due, `nodeInfo = this.nodeInfo = new Map(...)` first
assigns the property and then throws: `nodeInfo` is a `const` binding, and
assignment to a `const` is a `TypeError` in JS.  The loop that clears the
`source` of survivors pointing at removed nodes sits after that statement
and is never reached, and `this.heads` is never touched. -/
def prune (g : Graph) (maxSize : Int) : Graph × Option JsErr :=
  let size := g.size
  match computeScores g.nodeInfo g.heads with
  | .error e => (g, some e)
  | .ok _scores =>
    if maxSize < size then
      let sorted := sortByT g.nodeInfo
      let ni := toSpliced1 sorted (size - maxSize).toNat
      ({ g with nodeInfo := ni }, some .constAssign)
    else
      (g, none)

/-- An operation of the convergence loop on the graph. -/
inductive Op
  | add (source target : String) (d : Option String)
  | remove (target : String)
deriving Repr, DecidableEq

def stepOp (g : Graph) : Op → Graph × Option JsErr
  | .add s t d => addEdge g s t d
  | .remove k => (removeNode g k, none)

/-- Run a sequence of operations; `some g` exactly when every `addEdge`
completed without throwing. -/
def runOps : Graph → List Op → Option Graph
  | g, [] => some g
  | g, op :: rest =>
    match stepOp g op with
    | (g', none) => runOps g' rest
    | (_, some _) => none

/-- Whether an operation is an `addEdge` call. -/
def Op.isAdd : Op → Bool
  | .add _ _ _ => true
  | .remove _ => false

/-- Rank of a node for the furthest-node comparison: larger `distance`
wins, ties go to the smaller `_t` (earlier arrival). -/
def rk (i : Info) : Int × Int := (i.distance, -(i.t : Int))

/-- Strict lexicographic comparison of ranks. -/
def ltPair (a b : Int × Int) : Prop := a.1 < b.1 ∨ (a.1 = b.1 ∧ a.2 < b.2)

/-- Reflexive closure of `ltPair`. -/
def lePair (a b : Int × Int) : Prop := a = b ∨ ltPair a b

/-- `r`'s rank is not beaten by `x`'s (vacuous when either is absent,
mirroring the JS comparator's treatment of `undefined`). -/
def dominatesOver (m : NodeMap) (r x : Key) : Prop :=
  ∀ ir ix, aget m r = some ir → aget m x = some ix → ¬ ltPair (rk ir) (rk ix)

/-- Invariant of the memo map built by `computeFollows`: unique keys, the
two seed entries intact, and every key marked "follows the target" present
in the node map. -/
def FollowsInv (ni : NodeMap) (target : String)
    (f : List (Key × Bool)) : Prop :=
  (f.map (·.1)).Nodup ∧ aget f none = some false ∧
  aget f (some target) = some true ∧
  ∀ p ∈ f, p.2 = true → ahas ni p.1 = true

/-- The furthest-node characterization of a candidate key `F` against a
node map: the sentinel key exactly when the map holds no real node,
otherwise a present node whose rank strictly dominates every other entry
(sentinel included). -/
def FurthestOkND (ni : NodeMap) (F : Key) : Prop :=
  match F with
  | none => ∀ p ∈ ni, p.1 = none
  | some m => ∃ im, aget ni (some m) = some im ∧
      ∀ p ∈ ni, p.1 ≠ some m → ltPair (rk p.2) (rk im)

/-- The furthest-node characterization of a graph. -/
def FurthestOk (g : Graph) : Prop := FurthestOkND g.nodeInfo g.furthestNode

/-- Bookkeeping invariant of the node map and counter of every reachable
graph (everything except the furthest-node property). -/
structure PreInv (g : Graph) : Prop where
  sentinel : aget g.nodeInfo none = some sentinelInfo
  nodupKeys : (g.nodeInfo.map (·.1)).Nodup
  distNonneg : ∀ p ∈ g.nodeInfo, p.1 ≠ none → 0 ≤ p.2.distance
  srcDist : ∀ p ∈ g.nodeInfo, p.2.source ≠ none → 1 ≤ p.2.distance
  tBound : ∀ p ∈ g.nodeInfo, p.2.t < g.t
  tInj : ∀ p ∈ g.nodeInfo, ∀ q ∈ g.nodeInfo, p.2.t = q.2.t → p.1 = q.1
  srcPresent : ∀ p ∈ g.nodeInfo, ∀ s, p.2.source = some s →
    ahas g.nodeInfo (some s) = true

/-- State invariant of every graph reachable through successful `addEdge`
and `removeNode` calls. -/
structure Inv (g : Graph) extends PreInv g : Prop where
  furthestOk : FurthestOk g

/-- The heads characterization: exactly the present non-sentinel keys that
are no present node's source. -/
def HeadsOk (g : Graph) : Prop :=
  g.heads.Nodup ∧
  ∀ k : String, k ∈ g.heads ↔
    (ahas g.nodeInfo (some k) = true ∧ ∀ p ∈ g.nodeInfo, p.2.source ≠ some k)

end DG

/-! ## PeerGroup and PeerConnection: the mesh negotiation layer -/

namespace PG

/-- Exceptions surfacing from the embedded mesh code: `typeError` is a JS
`TypeError` (calling an undefined method / property of `null`),
`invalidState` is the `InvalidStateError` of `RTCDataChannel.send` on a
channel that is not open. -/
inductive JsErr
  | typeError
  | invalidState
deriving Repr, DecidableEq

/-- The data channel at its interface: only `readyState` is consulted. -/
structure RTCDataChannel where
  readyState : String
deriving Repr, DecidableEq

/-- An SDP session description. -/
structure SessionDescription where
  type : String
  sdp : String
deriving Repr, DecidableEq

/-- Outcomes of the awaited browser calls inside `negotiate` (resolved or
rejected), supplied from outside. -/
structure NegOracle where
  setRemoteOk : Bool
  setLocalOk : Bool
  addCandidateOk : Bool
deriving Repr, DecidableEq

/-- A `PeerConnection` together with an interface-level view of its
`RTCPeerConnection`: ids, the three negotiation flags, the signaling state,
the optional data channel, the remote descriptions and candidates applied so
far, and the `{candidate, description}` payloads handed to `sendOutOfBand`
(the "negotiate" events). -/
structure PeerConnection where
  localId : String
  remoteId : String
  polite : Bool
  ignoreOffer : Bool
  makingOffer : Bool
  signalingState : String
  channel : Option RTCDataChannel
  applied : List SessionDescription
  candidatesApplied : List String
  sent : List (Option String × Option SessionDescription)
deriving Repr, DecidableEq

/-- `PeerConnection.negotiate({candidate, description})`, the perfect
negotiation handler.  `this._ignoreOffer = !polite && offerCollision`; an
ignored offer returns before `setRemoteDescription`.  A rejected await lands
in the surrounding catch (console.error) leaving the remaining steps
undone.  The answer produced for an applied offer is sent out of band. -/
def negotiate (pc : PeerConnection) (candidate : Option String)
    (description : Option SessionDescription) (io : NegOracle) :
    PeerConnection :=
  match description with
  | some descr =>
    let offerCollision : Bool := descr.type = "offer" &&
      (pc.makingOffer || pc.signalingState != "stable")
    if !pc.polite && offerCollision then
      { pc with ignoreOffer := true }
    else
      let pc1 := { pc with ignoreOffer := false }
      if !io.setRemoteOk then pc1
      else
        let pc2 := { pc1 with
          applied := pc1.applied ++ [descr]
          signalingState :=
            if descr.type = "offer" then "have-remote-offer" else "stable" }
        if descr.type = "offer" then
          if !io.setLocalOk then pc2
          else
            { pc2 with
              signalingState := "stable"
              sent := pc2.sent ++ [(none, some { type := "answer", sdp := "" })] }
        else pc2
  | none =>
    match candidate with
    | some c =>
      -- a failed addIceCandidate is rethrown only when no offer is being
      -- ignored; either way it is caught by the outer catch (logged only)
      if io.addCandidateOk then
        { pc with candidatesApplied := pc.candidatesApplied ++ [c] }
      else pc
    | none => pc

/-- The `PeerConnection` constructor: flags cleared, politeness fixed as
`localId > remoteId`, then `setConnection`: with an initial remote
description this side waits for the data channel and immediately negotiates
the description; without one it creates the data channel itself. -/
def mkPeerConnection (localId remoteId : String)
    (description : Option SessionDescription) (io : NegOracle) :
    PeerConnection :=
  let pc : PeerConnection :=
    { localId := localId
      remoteId := remoteId
      polite := decide (localId > remoteId)
      ignoreOffer := false
      makingOffer := false
      signalingState := "stable"
      channel := none
      applied := []
      candidatesApplied := []
      sent := [] }
  match description with
  | some d => negotiate pc none (some d) io
  | none => { pc with channel := some { readyState := "connecting" } }

/-- `PeerConnection.send`: `this.channel.send(msgString)` with no guard
whatsoever: a missing channel is a `TypeError`, a non-open channel raises
`InvalidStateError`. -/
def PeerConnection.send (pc : PeerConnection) (_msg : String) : Option JsErr :=
  match pc.channel with
  | none => some .typeError
  | some ch => if ch.readyState = "open" then none else some .invalidState

/-- The mesh manager: the local identifier and the pool of peers. -/
structure PeerGroup where
  localId : String
  peers : List PeerConnection
deriving Repr, DecidableEq

/-- `PeerGroup.send` body: `this.peers.forEach((peer) => peer.send(msg))`.
There is no try/catch around `peer.send`: the first throwing send aborts
the `forEach` and the exception propagates to the caller.  Returns the
remote ids the message was delivered to, and the escaped exception. -/
def sendAll (peers : List PeerConnection) (msg : String) :
    List String × Option JsErr :=
  match peers with
  | [] => ([], none)
  | pc :: rest =>
    match pc.send msg with
    | some e => ([], some e)
    | none =>
      let r := sendAll rest msg
      (pc.remoteId :: r.1, r.2)

/-- `PeerGroup.send(msgString)`. -/
def PeerGroup.send (g : PeerGroup) (msg : String) :
    List String × Option JsErr :=
  sendAll g.peers msg

/-- `PeerGroup.getPeer(remoteId)`: first pool entry with that remote id. -/
def PeerGroup.getPeer (g : PeerGroup) (remoteId : String) :
    Option PeerConnection :=
  g.peers.find? (fun p => p.remoteId == remoteId)

/-- `PeerGroup.addPeer(remoteId, description)`: its first statement
evaluates `this.findPeer(remoteId)`, but the class defines `getPeer` and no
`findPeer`, so the call throws a `TypeError` before any `PeerConnection` is
constructed or added. -/
def PeerGroup.addPeer (_g : PeerGroup) (_remoteId : String)
    (_description : Option SessionDescription) : Except JsErr PeerGroup :=
  .error .typeError

/-- One lowercase-hex character of the peer-id pattern. -/
def isHexLower (c : Char) : Bool :=
  ('0' ≤ c && c ≤ '9') || ('a' ≤ c && c ≤ 'f')

/-- Split on the `-` separators of the peer-id pattern. -/
def splitDash : List Char → List (List Char)
  | [] => [[]]
  | c :: rest =>
    let r := splitDash rest
    if c = '-' then [] :: r
    else
      match r with
      | g :: gs => (c :: g) :: gs
      | [] => [[c]]

/-- `isValidId`: `typeof id === "string"` and the UUID-shaped pattern
`[0-9a-f]{8}(-[0-9a-f]{4}){3}-[0-9a-f]{12}` anchored at both ends. -/
def isValidId : Option String → Bool
  | none => false
  | some s =>
    let groups := splitDash s.toList
    decide (groups.map (·.length) = [8, 4, 4, 4, 12]) &&
      groups.all (·.all isHexLower)

/-- One envelope of the relay wire format, after JSON parsing (`none` embeds
an absent field; `fromId`/`toId` embed `from`/`to`). -/
structure Envelope where
  fromId : Option String
  toId : Option String
  candidate : Option String
  description : Option SessionDescription
deriving Repr, DecidableEq

/-- Routing decisions taken while handling a relay batch. -/
inductive Act
  | negotiated (remoteId : String) (candidate : Option String)
      (description : Option SessionDescription)
deriving Repr, DecidableEq

/-- Replace the pool entry `getPeer` found (it is mutated in place in JS). -/
def replaceFirst (peers : List PeerConnection) (remoteId : String)
    (pc' : PeerConnection) : List PeerConnection :=
  match peers with
  | [] => []
  | p :: rest =>
    if p.remoteId == remoteId then pc' :: rest
    else p :: replaceFirst rest remoteId pc'

/-- `PeerGroup._handlePeer(remoteId, {candidate, description})`: negotiate
on the existing link, else `addPeer` (which throws, see above). -/
def handlePeer (g : PeerGroup) (remoteId : String) (candidate : Option String)
    (description : Option SessionDescription) (io : NegOracle) :
    Except JsErr (PeerGroup × List Act) :=
  match g.getPeer remoteId with
  | some pc =>
    let pc' := negotiate pc candidate description io
    .ok ({ g with peers := replaceFirst g.peers remoteId pc' },
      [.negotiated remoteId candidate description])
  | none =>
    (g.addPeer remoteId description).map (fun g' => (g', []))

/-- The batch loop of `_handleSocketMessage` after a successful
`JSON.parse`: each envelope is handled iff `(to ?? localId) === localId` and
`isValidId(from)`; an exception thrown while handling one envelope aborts
the `forEach` and the remaining envelopes. -/
def handleSocketMessage (g : PeerGroup) (messages : List Envelope)
    (io : NegOracle) : Except JsErr (PeerGroup × List Act) :=
  messages.foldlM
    (fun st env =>
      if (env.toId.getD st.1.localId) = st.1.localId &&
          isValidId env.fromId then
        match env.fromId with
        | some f => do
          let (g', acts) ← handlePeer st.1 f env.candidate env.description io
          return (g', st.2 ++ acts)
        | none => .ok st
      else .ok st)
    (g, [])

end PG
/-! ### Claims C1 and C9 -/

open NS in
/-- C1: `evaluate` classifies exactly per the time-comparison table: time more
than one step ahead gives FAST_FORWARD with accept, equal time with
`incoming.next` equal to the local state gives CONFIRM without accept
regardless of the lotteries, equal time otherwise accepts iff the incoming
lottery is strictly greater (LOTTERY_LOST vs ROCK), and time strictly less
gives ONE_DIRECTION without accept. -/
theorem evaluate_time_table (s : NextState) (p : Proposal) :
    (p.time > s.time + 1 →
      (s.evaluate p).code = FAST_FORWARD ∧ (s.evaluate p).accept = true) ∧
    (p.time = s.time → p.next = s.state →
      (s.evaluate p).code = CONFIRM ∧ (s.evaluate p).accept = false) ∧
    (p.time = s.time → p.next ≠ s.state →
      ((s.evaluate p).accept = true ↔ p.lottery > s.lottery) ∧
      (s.evaluate p).code =
        (if p.lottery > s.lottery then LOTTERY_LOST else ROCK)) ∧
    (p.time < s.time →
      (s.evaluate p).code = ONE_DIRECTION ∧ (s.evaluate p).accept = false) := by
  unfold NextState.evaluate
  refine ⟨fun h1 => ?_, fun h1 h2 => ?_, fun h1 h2 => ?_, fun h1 => ?_⟩
  · have ht : p.time > s.time := by omega
    simp [ht, h1]
  · simp [h1, h2]
  · constructor
    · constructor
      · intro hacc
        by_contra hl
        simp [h1, h2, hl] at hacc
      · intro hl
        simp [h1, h2, hl]
    · by_cases hl : p.lottery > s.lottery <;> simp [h1, h2, hl]
  · have ht : ¬ p.time > s.time := by omega
    have ht2 : ¬ p.time = s.time := by omega
    simp [ht, ht2]

open NS in
/-- Witness for C1 at concrete inputs exercising each hypothesis. -/
theorem evaluate_time_table_witness :
    let s : NextState := { state := "a", time := 3, lottery := (1 : Rat) / 2 }
    let pFF : Proposal :=
      { next := "b", state := "a", time := 5, lottery := 0 }
    let pC : Proposal := { next := "a", state := "z", time := 3, lottery := 1 }
    let pL : Proposal :=
      { next := "b", state := "z", time := 3, lottery := (3 : Rat) / 4 }
    let pO : Proposal := { next := "b", state := "a", time := 2, lottery := 0 }
    ((s.evaluate pFF).code = FAST_FORWARD ∧ (s.evaluate pFF).accept = true) ∧
    ((s.evaluate pC).code = CONFIRM ∧ (s.evaluate pC).accept = false) ∧
    (((s.evaluate pL).accept = true ↔ pL.lottery > s.lottery) ∧
      (s.evaluate pL).code =
        (if pL.lottery > s.lottery then LOTTERY_LOST else ROCK)) ∧
    ((s.evaluate pO).code = ONE_DIRECTION ∧ (s.evaluate pO).accept = false) := by
  intro s pFF pC pL pO
  refine ⟨(evaluate_time_table s pFF).1 (by decide),
    (evaluate_time_table s pC).2.1 (by decide) (by decide),
    (evaluate_time_table s pL).2.2.1 (by decide) (by decide),
    (evaluate_time_table s pO).2.2.2 (by decide)⟩

open NS in
/-- C9: a peer that has advanced into its own proposal classifies the echo of
that proposal as CONFIRM with accept = false. -/
theorem advance_propose_echo_confirm (s : NextState) (x : String) (l : Rat) :
    ((s.advance (s.propose x l)).evaluate (s.propose x l)).code = CONFIRM ∧
    ((s.advance (s.propose x l)).evaluate (s.propose x l)).accept = false := by
  simp [NextState.advance, NextState.propose, NextState.evaluate]


/-! ### Claims C2, C3, C8 (counterexample side), C10 -/

namespace DG

/-- The error path of `addEdge` commits the source-handling mutations before
the check throws: a fresh source root stays inserted.  Concretely: after a
successful edge a→b, the failing call addEdge(c, b) throws the
protocol-violation error yet leaves the fresh root c in the map. -/
theorem addEdge_reject_still_mutates :
    (addEdge (addEdge Graph.init "a" "b" none).1 "c" "b" none).2 =
      some JsErr.protocolViolation ∧
    (addEdge (addEdge Graph.init "a" "b" none).1 "c" "b" none).1.nodeInfo ≠
      (addEdge Graph.init "a" "b" none).1.nodeInfo := by
  decide

end DG

/-! ### Association-list map lemmas -/

namespace DG

theorem aget_aset_self [DecidableEq κ] (m : List (κ × α)) (k : κ) (v : α) :
    aget (aset m k v) k = some v := by
  induction m with
  | nil => simp [aset, aget]
  | cons p rest ih =>
    by_cases h : p.1 = k
    · simp [aset, h, aget]
    · simp [aset, h, aget, ih]

theorem aget_aset_ne [DecidableEq κ] (m : List (κ × α)) (k k' : κ) (v : α)
    (h : k' ≠ k) : aget (aset m k v) k' = aget m k' := by
  have hkk : ¬ (k = k') := fun hh => h hh.symm
  induction m with
  | nil => simp only [aset, aget, if_neg hkk]
  | cons p rest ih =>
    by_cases hp : p.1 = k
    · have hp' : ¬ (p.1 = k') := fun hh => hkk (hp.symm.trans hh)
      simp only [aset, if_pos hp, aget, if_neg hkk, if_neg hp']
    · by_cases hp' : p.1 = k'
      · simp only [aset, if_neg hp, aget, if_pos hp']
      · simp only [aset, if_neg hp, aget, if_neg hp', ih]

theorem mem_keys_of_ahas [DecidableEq κ] (m : List (κ × α)) (k : κ)
    (h : ahas m k = true) : k ∈ m.map (·.1) := by
  induction m with
  | nil => simp [ahas, aget] at h
  | cons p rest ih =>
    by_cases hp : p.1 = k
    · simp [hp]
    · simp only [ahas, aget, if_neg hp] at h
      simp [ih h]

theorem ahas_of_mem_keys [DecidableEq κ] (m : List (κ × α)) (k : κ)
    (h : k ∈ m.map (·.1)) : ahas m k = true := by
  induction m with
  | nil => simp at h
  | cons p rest ih =>
    by_cases hp : p.1 = k
    · simp [ahas, aget, hp]
    · simp only [List.map_cons, List.mem_cons] at h
      simp only [ahas, aget, if_neg hp]
      rcases h with h1 | h1
      · exact absurd h1.symm hp
      · exact ih h1

theorem ahas_iff_mem_keys [DecidableEq κ] (m : List (κ × α)) (k : κ) :
    ahas m k = true ↔ k ∈ m.map (·.1) :=
  ⟨mem_keys_of_ahas m k, ahas_of_mem_keys m k⟩

theorem keys_aset_of_ahas [DecidableEq κ] (m : List (κ × α)) (k : κ) (v : α)
    (h : ahas m k = true) : (aset m k v).map (·.1) = m.map (·.1) := by
  induction m with
  | nil => simp [ahas, aget] at h
  | cons p rest ih =>
    by_cases hp : p.1 = k
    · simp [aset, hp]
    · simp only [ahas, aget, if_neg hp] at h
      simp [aset, hp, ih h]

theorem keys_aset_of_not_ahas [DecidableEq κ] (m : List (κ × α)) (k : κ)
    (v : α) (h : ahas m k = false) :
    (aset m k v).map (·.1) = m.map (·.1) ++ [k] := by
  induction m with
  | nil => simp [aset]
  | cons p rest ih =>
    by_cases hp : p.1 = k
    · simp [ahas, aget, hp] at h
    · simp only [ahas, aget, if_neg hp] at h
      simp [aset, hp, ih h]

theorem mem_of_aget_eq_some [DecidableEq κ] (m : List (κ × α)) (k : κ)
    (v : α) (h : aget m k = some v) : (k, v) ∈ m := by
  induction m with
  | nil => simp [aget] at h
  | cons p rest ih =>
    by_cases hp : p.1 = k
    · simp only [aget, if_pos hp] at h
      obtain ⟨pk, pv⟩ := p
      simp only at hp
      injection h with hv
      subst hp
      subst hv
      exact List.mem_cons_self _ _
    · simp only [aget, if_neg hp] at h
      exact List.mem_cons_of_mem _ (ih h)

theorem aget_eq_some_of_mem [DecidableEq κ] (m : List (κ × α))
    (nd : (m.map (·.1)).Nodup) (k : κ) (v : α) (hm : (k, v) ∈ m) :
    aget m k = some v := by
  induction m with
  | nil => simp at hm
  | cons p rest ih =>
    simp only [List.map_cons, List.nodup_cons] at nd
    rcases List.mem_cons.mp hm with h1 | h1
    · rw [← h1]
      simp [aget]
    · have hk : ¬ (p.1 = k) := by
        intro he
        apply nd.1
        rw [he]
        exact List.mem_map.mpr ⟨(k, v), h1, rfl⟩
      simp only [aget, if_neg hk]
      exact ih nd.2 h1

theorem aget_isSome_of_mem_keys [DecidableEq κ] (m : List (κ × α)) (k : κ)
    (h : k ∈ m.map (·.1)) : (aget m k).isSome := ahas_of_mem_keys m k h

theorem mem_aset_elim [DecidableEq κ] (m : List (κ × α))
    (nd : (m.map (·.1)).Nodup) (k : κ) (v : α) (p : κ × α)
    (h : p ∈ aset m k v) : p = (k, v) ∨ (p ∈ m ∧ ¬ (p.1 = k)) := by
  induction m with
  | nil =>
    simp only [aset, List.mem_singleton] at h
    exact Or.inl h
  | cons q rest ih =>
    simp only [List.map_cons, List.nodup_cons] at nd
    by_cases hq : q.1 = k
    · simp only [aset, if_pos hq] at h
      rcases List.mem_cons.mp h with h1 | h1
      · exact Or.inl h1
      · right
        refine ⟨List.mem_cons_of_mem _ h1, ?_⟩
        intro he
        apply nd.1
        rw [hq, ← he]
        exact List.mem_map.mpr ⟨p, h1, rfl⟩
    · simp only [aset, if_neg hq] at h
      rcases List.mem_cons.mp h with h1 | h1
      · right
        refine ⟨List.mem_cons.mpr (Or.inl h1), ?_⟩
        intro he
        exact hq ((congrArg Prod.fst h1).symm.trans he)
      · rcases ih nd.2 h1 with h2 | h2
        · exact Or.inl h2
        · exact Or.inr ⟨List.mem_cons_of_mem _ h2.1, h2.2⟩

theorem nodup_keys_aset [DecidableEq κ] (m : List (κ × α))
    (nd : (m.map (·.1)).Nodup) (k : κ) (v : α) :
    ((aset m k v).map (·.1)).Nodup := by
  by_cases h : ahas m k = true
  · rw [keys_aset_of_ahas m k v h]
    exact nd
  · have h' : ahas m k = false := by
      cases hh : ahas m k
      · rfl
      · exact absurd hh h
    rw [keys_aset_of_not_ahas m k v h', List.nodup_append]
    refine ⟨nd, List.nodup_singleton _, fun x hx hx2 => ?_⟩
    rw [List.mem_singleton] at hx2
    subst hx2
    rw [ahas_iff_mem_keys] at h
    exact h hx

theorem mem_of_mem_adel [DecidableEq κ] (m : List (κ × α)) (k : κ)
    (p : κ × α) (h : p ∈ adel m k) : p ∈ m := by
  induction m with
  | nil => simp [adel] at h
  | cons q rest ih =>
    by_cases hq : q.1 = k
    · simp only [adel, if_pos hq] at h
      exact List.mem_cons_of_mem _ h
    · simp only [adel, if_neg hq] at h
      rcases List.mem_cons.mp h with h1 | h1
      · exact List.mem_cons.mpr (Or.inl h1)
      · exact List.mem_cons_of_mem _ (ih h1)

theorem keys_adel_sublist [DecidableEq κ] (m : List (κ × α)) (k : κ) :
    ((adel m k).map (·.1)).Sublist (m.map (·.1)) := by
  induction m with
  | nil => simp [adel]
  | cons q rest ih =>
    by_cases hq : q.1 = k
    · simp only [adel, if_pos hq, List.map_cons]
      exact List.Sublist.cons _ (List.Sublist.refl _)
    · simp only [adel, if_neg hq, List.map_cons]
      exact ih.cons₂ _

theorem aget_adel_ne [DecidableEq κ] (m : List (κ × α)) (k k' : κ)
    (h : k' ≠ k) : aget (adel m k) k' = aget m k' := by
  induction m with
  | nil => simp [adel]
  | cons q rest ih =>
    by_cases hq : q.1 = k
    · have hq' : ¬ (q.1 = k') := fun hh => h (hh.symm.trans hq)
      simp only [adel, if_pos hq, aget, if_neg hq']
    · by_cases hq' : q.1 = k'
      · simp only [adel, if_neg hq, aget, if_pos hq']
      · simp only [adel, if_neg hq, aget, if_neg hq', ih]

theorem aget_adel_self [DecidableEq κ] (m : List (κ × α))
    (nd : (m.map (·.1)).Nodup) (k : κ) : aget (adel m k) k = none := by
  induction m with
  | nil => simp [adel, aget]
  | cons q rest ih =>
    simp only [List.map_cons, List.nodup_cons] at nd
    by_cases hq : q.1 = k
    · simp only [adel, if_pos hq]
      cases hk : aget rest k with
      | none => rfl
      | some v =>
        exfalso
        apply nd.1
        rw [hq]
        exact List.mem_map.mpr ⟨(k, v), mem_of_aget_eq_some _ _ _ hk, rfl⟩
    · simp only [adel, if_neg hq, aget, if_neg hq]
      exact ih nd.2

theorem keys_map_snd (m : List (κ × α)) (f : α → β) :
    ((m.map (fun p => (p.1, f p.2))).map (·.1)) = m.map (·.1) := by
  induction m with
  | nil => rfl
  | cons q rest ih => simp [ih]

theorem aget_map_snd [DecidableEq κ] (m : List (κ × α)) (f : α → β) (k : κ) :
    aget (m.map (fun p => (p.1, f p.2))) k = (aget m k).map f := by
  induction m with
  | nil => simp [aget]
  | cons q rest ih =>
    by_cases hq : q.1 = k
    · simp [aget, hq]
    · simp [aget, hq, ih]

end DG

/-! ### Rank order and the reduce comparator -/

namespace DG

theorem ltPair_irrefl (a : Int × Int) : ¬ ltPair a a := by
  simp [ltPair]

theorem ltPair_trans {a b c : Int × Int} (h1 : ltPair a b)
    (h2 : ltPair b c) : ltPair a c := by
  rcases h1 with h1 | ⟨he1, h1⟩ <;> rcases h2 with h2 | ⟨he2, h2⟩
  · exact Or.inl (lt_trans h1 h2)
  · exact Or.inl (he2 ▸ h1)
  · exact Or.inl (he1 ▸ h2)
  · exact Or.inr ⟨he1.trans he2, lt_trans h1 h2⟩

theorem ltPair_trichotomy (a b : Int × Int) :
    ltPair a b ∨ a = b ∨ ltPair b a := by
  rcases lt_trichotomy a.1 b.1 with h | h | h
  · exact Or.inl (Or.inl h)
  · rcases lt_trichotomy a.2 b.2 with h2 | h2 | h2
    · exact Or.inl (Or.inr ⟨h, h2⟩)
    · refine Or.inr (Or.inl ?_)
      cases a
      cases b
      simp only at h h2
      rw [h, h2]
    · exact Or.inr (Or.inr (Or.inr ⟨h.symm, h2⟩))
  · exact Or.inr (Or.inr (Or.inl h))

theorem lePair_trans {a b c : Int × Int} (h1 : lePair a b)
    (h2 : lePair b c) : lePair a c := by
  rcases h1 with h1 | h1
  · rw [h1]; exact h2
  · rcases h2 with h2 | h2
    · rw [← h2]; exact Or.inr h1
    · exact Or.inr (ltPair_trans h1 h2)

theorem not_ltPair_iff (a b : Int × Int) : ¬ ltPair a b ↔ lePair b a := by
  constructor
  · intro h
    rcases ltPair_trichotomy a b with h1 | h1 | h1
    · exact absurd h1 h
    · exact Or.inl h1.symm
    · exact Or.inr h1
  · rintro (h1 | h1) hcon
    · rw [h1] at hcon
      exact ltPair_irrefl _ hcon
    · exact ltPair_irrefl _ (ltPair_trans hcon h1)

theorem not_ltPair_trans {a b c : Int × Int} (h1 : ¬ ltPair a b)
    (h2 : ¬ ltPair b c) : ¬ ltPair a c := by
  rw [not_ltPair_iff] at h1 h2 ⊢
  exact lePair_trans h2 h1

theorem ltPair_of_ne {a b : Int × Int} (h : ¬ ltPair a b) (hne : b ≠ a) :
    ltPair b a := by
  rcases ltPair_trichotomy b a with h1 | h1 | h1
  · exact h1
  · exact absurd h1 hne
  · exact absurd h1 h

theorem ltPair_rk_iff (i j : Info) :
    ltPair (rk i) (rk j) ↔
      (i.distance < j.distance ∨ (i.distance = j.distance ∧ j.t < i.t)) := by
  unfold ltPair rk
  constructor
  · rintro (h | ⟨h1, h2⟩)
    · exact Or.inl h
    · exact Or.inr ⟨h1, by omega⟩
  · rintro (h | ⟨h1, h2⟩)
    · exact Or.inl h
    · exact Or.inr ⟨h1, by omega⟩

theorem pickBetter_eq_or (m : NodeMap) (a b : Key) :
    pickBetter m a b = a ∨ pickBetter m a b = b := by
  rcases ha : aget m a with _ | ia
  · simp [pickBetter, ha]
  · rcases hb : aget m b with _ | ib
    · simp [pickBetter, ha, hb]
    · simp only [pickBetter, ha, hb]
      split
      · exact Or.inl rfl
      · split
        · exact Or.inr rfl
        · split
          · exact Or.inl rfl
          · exact Or.inr rfl

theorem pickBetter_absent (m : NodeMap) (a b : Key) (ha : aget m a = none) :
    pickBetter m a b = b := by
  simp only [pickBetter, ha]

theorem pickBetter_spec (m : NodeMap) (a b : Key) (ia ib : Info)
    (ha : aget m a = some ia) (hb : aget m b = some ib) :
    ∃ ir, aget m (pickBetter m a b) = some ir ∧
      ¬ ltPair (rk ir) (rk ia) ∧ ¬ ltPair (rk ir) (rk ib) := by
  simp only [pickBetter, ha, hb]
  by_cases h1 : ia.distance > ib.distance
  · rw [if_pos h1]
    exact ⟨ia, ha, ltPair_irrefl _, by rw [ltPair_rk_iff]; omega⟩
  · rw [if_neg h1]
    by_cases h2 : ia.distance < ib.distance
    · rw [if_pos h2]
      exact ⟨ib, hb, by rw [ltPair_rk_iff]; omega, ltPair_irrefl _⟩
    · rw [if_neg h2]
      by_cases h3 : ia.t < ib.t
      · rw [if_pos h3]
        exact ⟨ia, ha, ltPair_irrefl _, by rw [ltPair_rk_iff]; omega⟩
      · rw [if_neg h3]
        exact ⟨ib, hb, by rw [ltPair_rk_iff]; omega, ltPair_irrefl _⟩

theorem foldl_pickBetter_spec (m : NodeMap) (l : List Key) :
    ∀ (a : Key) (ia : Info), (∀ x ∈ l, (aget m x).isSome) →
    aget m a = some ia →
    ∃ ir, aget m (l.foldl (pickBetter m) a) = some ir ∧
      (l.foldl (pickBetter m) a = a ∨ l.foldl (pickBetter m) a ∈ l) ∧
      ¬ ltPair (rk ir) (rk ia) ∧
      ∀ x ∈ l, ∀ ix, aget m x = some ix → ¬ ltPair (rk ir) (rk ix) := by
  induction l with
  | nil =>
    intro a ia _ ha
    exact ⟨ia, ha, Or.inl rfl, ltPair_irrefl _, by simp⟩
  | cons x rest ih =>
    intro a ia hl ha
    have hx : (aget m x).isSome := hl x (List.mem_cons_self _ _)
    obtain ⟨ixv, hxv⟩ := Option.isSome_iff_exists.mp hx
    obtain ⟨ib, hbget, hb_nlt_a, hb_nlt_x⟩ :=
      pickBetter_spec m a x ia ixv ha hxv
    obtain ⟨ir, hrget, hrmem, hr_nlt_b, hrall⟩ :=
      ih (pickBetter m a x) ib (fun y hy => hl y (List.mem_cons_of_mem _ hy))
        hbget
    rw [List.foldl_cons]
    refine ⟨ir, hrget, ?_, not_ltPair_trans hr_nlt_b hb_nlt_a, ?_⟩
    · rcases hrmem with h1 | h1
      · rcases pickBetter_eq_or m a x with h2 | h2
        · exact Or.inl (h1.trans h2)
        · exact Or.inr (by rw [h1, h2]; exact List.mem_cons_self _ _)
      · exact Or.inr (List.mem_cons_of_mem _ h1)
    · intro y hy iy hyget
      rcases List.mem_cons.mp hy with h1 | h1
      · rw [h1] at hyget
        rw [hyget] at hxv
        injection hxv with he
        rw [he]
        exact not_ltPair_trans hr_nlt_b hb_nlt_x
      · exact hrall y h1 iy hyget

theorem foldl_pickBetter_absent (m : NodeMap) (l : List Key) (a : Key)
    (ha : aget m a = none) (hl : ∀ x ∈ l, (aget m x).isSome)
    (hne : l ≠ []) :
    ∃ ir, aget m (l.foldl (pickBetter m) a) = some ir ∧
      l.foldl (pickBetter m) a ∈ l ∧
      ∀ x ∈ l, ∀ ix, aget m x = some ix → ¬ ltPair (rk ir) (rk ix) := by
  cases l with
  | nil => exact absurd rfl hne
  | cons x rest =>
    have hx : (aget m x).isSome := hl x (List.mem_cons_self _ _)
    obtain ⟨ixv, hxv⟩ := Option.isSome_iff_exists.mp hx
    rw [List.foldl_cons, pickBetter_absent m a x ha]
    obtain ⟨ir, hrget, hrmem, hr_nlt_x, hrall⟩ :=
      foldl_pickBetter_spec m rest x ixv
        (fun y hy => hl y (List.mem_cons_of_mem _ hy)) hxv
    refine ⟨ir, hrget, ?_, ?_⟩
    · rcases hrmem with h1 | h1
      · exact (by rw [h1]; exact List.mem_cons_self _ _)
      · exact List.mem_cons_of_mem _ h1
    · intro y hy iy hyget
      rcases List.mem_cons.mp hy with h1 | h1
      · rw [h1] at hyget
        rw [hyget] at hxv
        injection hxv with he
        rw [he]
        exact hr_nlt_x
      · exact hrall y h1 iy hyget

end DG

/-! ### Walk, follows and bump lemmas -/

namespace DG

theorem walkBack_ok {α} (m : NodeMap) (memo : Key → Option α) :
    ∀ (fuel : Nat) (node : Key) (path p' : List Key) (v : α),
    walkBack m memo fuel node path = .ok (p', v) →
    (∀ n ∈ p', n ∈ path ∨ ((aget m n).isSome ∧ memo n = none)) ∧
    (∃ k, memo k = some v) := by
  intro fuel
  induction fuel with
  | zero =>
    intro node path p' v h
    simp [walkBack] at h
  | succ f ih =>
    intro node path p' v h
    simp only [walkBack] at h
    cases hm : memo node with
    | some w =>
      rw [hm] at h
      simp only [Except.ok.injEq, Prod.mk.injEq] at h
      obtain ⟨hp, hv⟩ := h
      subst hp
      refine ⟨fun n hn => Or.inl hn, ⟨node, ?_⟩⟩
      rw [hm, hv]
    | none =>
      rw [hm] at h
      cases hg : aget m node with
      | none =>
        rw [hg] at h
        simp at h
      | some i =>
        rw [hg] at h
        obtain ⟨hmem, hex⟩ := ih i.source (path ++ [node]) p' v h
        refine ⟨?_, hex⟩
        intro n hn
        rcases hmem n hn with h1 | h1
        · rcases List.mem_append.mp h1 with h2 | h2
          · exact Or.inl h2
          · rw [List.mem_singleton] at h2
            subst h2
            exact Or.inr ⟨by rw [hg]; rfl, hm⟩
        · exact Or.inr h1

theorem foldl_aset_follows (ni : NodeMap) (target : String) (value : Bool) :
    ∀ (path : List Key) (f0 : List (Key × Bool)),
    (∀ n ∈ path, ahas ni n = true) →
    (∀ n ∈ path, n ≠ none ∧ n ≠ some target) →
    FollowsInv ni target f0 →
    FollowsInv ni target (path.foldl (fun f n => aset f n value) f0) := by
  intro path
  induction path with
  | nil =>
    intro f0 _ _ hf
    exact hf
  | cons n rest ih =>
    intro f0 hpath hne hf
    obtain ⟨hnd, hnone, htgt, htrue⟩ := hf
    have hn := hne n (List.mem_cons_self _ _)
    rw [List.foldl_cons]
    refine ih (aset f0 n value)
      (fun y hy => hpath y (List.mem_cons_of_mem _ hy))
      (fun y hy => hne y (List.mem_cons_of_mem _ hy)) ?_
    refine ⟨nodup_keys_aset f0 hnd n value, ?_, ?_, ?_⟩
    · rw [aget_aset_ne f0 n none value (Ne.symm hn.1)]
      exact hnone
    · rw [aget_aset_ne f0 n (some target) value (Ne.symm hn.2)]
      exact htgt
    · intro p hp hpt
      rcases mem_aset_elim f0 hnd n value p hp with h1 | h1
      · rw [h1]
        exact hpath n (List.mem_cons_self _ _)
      · exact htrue p h1.1 hpt

theorem computeFollows_inv (ni : NodeMap) (target : String) :
    ∀ (heads : List String) (f0 : List (Key × Bool)),
    FollowsInv ni target f0 →
    ∀ f, heads.foldlM
      (fun follows h => do
        let (path, value) ←
          walkBack ni (fun k => aget follows k) (ni.length + 1) (some h) []
        return path.foldl (fun fo n => aset fo n value) follows) f0 = .ok f →
    FollowsInv ni target f := by
  intro heads
  induction heads with
  | nil =>
    intro f0 hf f h
    simp only [List.foldlM_nil, pure, Except.pure, Except.ok.injEq] at h
    rw [← h]
    exact hf
  | cons hd rest ih =>
    intro f0 hf f h
    rw [List.foldlM_cons] at h
    cases hw : walkBack ni (fun k => aget f0 k) (ni.length + 1) (some hd) []
      with
    | error e =>
      rw [hw] at h
      simp [bind, Except.bind] at h
    | ok pv =>
      obtain ⟨path, value⟩ := pv
      rw [hw] at h
      simp only [bind, Except.bind] at h
      obtain ⟨hmem, _⟩ := walkBack_ok ni (fun k => aget f0 k) _ _ _ _ _ hw
      have hfresh : ∀ n ∈ path, (aget ni n).isSome ∧ aget f0 n = none := by
        intro n hn
        rcases hmem n hn with h1 | h1
        · simp at h1
        · exact h1
      refine ih (path.foldl (fun fo n => aset fo n value) f0) ?_ f h
      refine foldl_aset_follows ni target value path f0 ?_ ?_ hf
      · intro n hn
        exact (hfresh n hn).1
      · intro n hn
        constructor
        · intro he
          have := (hfresh n hn).2
          rw [he, hf.2.1] at this
          cases this
        · intro he
          have := (hfresh n hn).2
          rw [he, hf.2.2.1] at this
          cases this

theorem computeFollows_ok (ni : NodeMap) (heads : List String)
    (target : String) (hT : ahas ni (some target) = true)
    (f : List (Key × Bool)) (h : computeFollows ni heads target = .ok f) :
    FollowsInv ni target f := by
  refine computeFollows_inv ni target heads _ ?_ f h
  refine ⟨by simp, by simp [aget], by simp [aget], ?_⟩
  intro p hp hpt
  rcases List.mem_cons.mp hp with h1 | h1
  · rw [h1]
    exact hT
  · rw [List.mem_singleton] at h1
    rw [h1] at hpt
    cases hpt

theorem bumpAll_ok (td : Int) :
    ∀ (nodes : List Key) (m : NodeMap),
    (m.map (·.1)).Nodup → nodes.Nodup →
    (∀ n ∈ nodes, ahas m n = true) →
    ∃ m2, bumpAll m nodes td = .ok m2 ∧
      m2.map (·.1) = m.map (·.1) ∧
      (∀ k, k ∉ nodes → aget m2 k = aget m k) ∧
      (∀ k ∈ nodes, ∀ i, aget m k = some i →
        aget m2 k = some { i with distance := i.distance + td }) := by
  intro nodes
  induction nodes with
  | nil =>
    intro m hnd _ _
    refine ⟨m, ?_, rfl, fun k _ => rfl, by simp⟩
    simp [bumpAll, pure, Except.pure]
  | cons n rest ih =>
    intro m hnd hnodup hpres
    have hn : ahas m n = true := hpres n (List.mem_cons_self _ _)
    obtain ⟨i0, hi0⟩ := Option.isSome_iff_exists.mp hn
    have hm1keys : (aset m n { i0 with distance := i0.distance + td }).map (·.1)
        = m.map (·.1) := keys_aset_of_ahas m n _ hn
    have hm1nd : ((aset m n { i0 with distance := i0.distance + td }).map (·.1)).Nodup := by
      rw [hm1keys]
      exact hnd
    have hrestpres : ∀ y ∈ rest,
        ahas (aset m n { i0 with distance := i0.distance + td }) y = true := by
      intro y hy
      rw [ahas_iff_mem_keys, hm1keys, ← ahas_iff_mem_keys]
      exact hpres y (List.mem_cons_of_mem _ hy)
    simp only [List.nodup_cons] at hnodup
    obtain ⟨m2, hrun, hkeys, hout, hin⟩ :=
      ih (aset m n { i0 with distance := i0.distance + td }) hm1nd hnodup.2
        hrestpres
    refine ⟨m2, ?_, hkeys.trans hm1keys, ?_, ?_⟩
    · simp only [bumpAll, List.foldlM_cons, hi0, bind, Except.bind]
      exact hrun
    · intro k hk
      have hk1 : k ∉ rest := fun hh => hk (List.mem_cons_of_mem _ hh)
      have hk2 : k ≠ n := fun hh => hk (hh ▸ List.mem_cons_self _ _)
      rw [hout k hk1, aget_aset_ne m n k _ hk2]
    · intro k hk i hi
      rcases List.mem_cons.mp hk with h1 | h1
      · subst h1
        rw [hi0] at hi
        injection hi with he
        subst he
        rw [hout k hnodup.1, aget_aset_self]
      · have hkn : k ≠ n := by
          intro he
          rw [he] at h1
          exact hnodup.1 h1
        refine hin k h1 i ?_
        rw [aget_aset_ne m n k _ hkn]
        exact hi

end DG

/-! ### Structural lemmas for the addEdge and removeNode proofs -/

namespace DG

theorem aset_eq_append [DecidableEq κ] (m : List (κ × α)) (k : κ) (v : α)
    (h : ahas m k = false) : aset m k v = m ++ [(k, v)] := by
  induction m with
  | nil => simp [aset]
  | cons p rest ih =>
    by_cases hp : p.1 = k
    · rw [ahas, aget, if_pos hp] at h
      simp at h
    · rw [ahas, aget, if_neg hp] at h
      simp only [aset, if_neg hp, List.cons_append]
      rw [ih h]

theorem setFurthest_nodeInfo (g : Graph) (n : Key) :
    (setFurthest g n).nodeInfo = g.nodeInfo := by
  unfold setFurthest
  split <;> rfl

theorem setFurthest_heads (g : Graph) (n : Key) :
    (setFurthest g n).heads = g.heads := by
  unfold setFurthest
  split <;> rfl

theorem setFurthest_t (g : Graph) (n : Key) :
    (setFurthest g n).t = g.t := by
  unfold setFurthest
  split <;> rfl

theorem setFurthest_furthest (g : Graph) (n : Key) :
    (setFurthest g n).furthestNode = n := by
  unfold setFurthest
  split
  · rename_i h
    exact h.symm
  · rfl

theorem sourceStep_pos (g : Graph) (s : String)
    (h : ahas g.nodeInfo (some s) = true) :
    sourceStep g s = { g with heads := g.heads.erase s } := by
  unfold sourceStep
  rw [if_pos h]

theorem sourceStep_neg (g : Graph) (s : String)
    (h : ahas g.nodeInfo (some s) = false) :
    sourceStep g s = { g with
      nodeInfo := aset g.nodeInfo (some s)
        { source := none, distance := 0, t := g.t, data := none }
      t := g.t + 1 } := by
  unfold sourceStep
  rw [if_neg (by rw [h]; simp)]

theorem sourceStep_furthest (g : Graph) (s : String) :
    (sourceStep g s).furthestNode = g.furthestNode := by
  unfold sourceStep
  split <;> rfl

theorem sourceStep_events (g : Graph) (s : String) :
    (sourceStep g s).events = g.events := by
  unfold sourceStep
  split <;> rfl

theorem sourceStep_has_source (g : Graph) (s : String) :
    ahas (sourceStep g s).nodeInfo (some s) = true := by
  by_cases h : ahas g.nodeInfo (some s) = true
  · rw [sourceStep_pos g s h]
    exact h
  · rw [sourceStep_neg g s (by simpa using h)]
    show ahas (aset _ _ _) _ = true
    rw [ahas, aget_aset_self]
    rfl

theorem sourceStep_preInv (g : Graph) (s : String) (h : PreInv g) :
    PreInv (sourceStep g s) := by
  by_cases hs : ahas g.nodeInfo (some s) = true
  · rw [sourceStep_pos g s hs]
    exact ⟨h.sentinel, h.nodupKeys, h.distNonneg, h.srcDist, h.tBound,
      h.tInj, h.srcPresent⟩
  · have hs' : ahas g.nodeInfo (some s) = false := by simpa using hs
    rw [sourceStep_neg g s hs']
    set nf : Info := { source := none, distance := 0, t := g.t, data := none }
      with hnf
    refine ⟨?_, ?_, ?_, ?_, ?_, ?_, ?_⟩
    · show aget (aset g.nodeInfo (some s) nf) none = some sentinelInfo
      rw [aget_aset_ne _ _ _ _ (by simp)]
      exact h.sentinel
    · exact nodup_keys_aset g.nodeInfo h.nodupKeys _ nf
    · intro p hp hne
      rcases mem_aset_elim g.nodeInfo h.nodupKeys _ nf p hp with h1 | h1
      · rw [h1]
      · exact h.distNonneg p h1.1 hne
    · intro p hp hne
      rcases mem_aset_elim g.nodeInfo h.nodupKeys _ nf p hp with h1 | h1
      · rw [h1] at hne
        simp [hnf] at hne
      · exact h.srcDist p h1.1 hne
    · intro p hp
      rcases mem_aset_elim g.nodeInfo h.nodupKeys _ nf p hp with h1 | h1
      · rw [h1]
        show g.t < g.t + 1
        omega
      · have := h.tBound p h1.1
        show p.2.t < g.t + 1
        omega
    · intro p hp q hq he
      rcases mem_aset_elim g.nodeInfo h.nodupKeys _ nf p hp with h1 | h1 <;>
        rcases mem_aset_elim g.nodeInfo h.nodupKeys _ nf q hq with h2 | h2
      · rw [h1, h2]
      · exfalso
        have := h.tBound q h2.1
        rw [h1] at he
        simp only [hnf] at he
        omega
      · exfalso
        have := h.tBound p h1.1
        rw [h2] at he
        simp only [hnf] at he
        omega
      · exact h.tInj p h1.1 q h2.1 he
    · intro p hp x hx
      rcases mem_aset_elim g.nodeInfo h.nodupKeys _ nf p hp with h1 | h1
      · rw [h1] at hx
        simp [hnf] at hx
      · have := h.srcPresent p h1.1 x hx
        rw [ahas_iff_mem_keys] at this ⊢
        rw [keys_aset_of_not_ahas g.nodeInfo _ nf hs']
        exact List.mem_append_left _ this

theorem sourceStep_all_sentinel (g : Graph) (s : String) (hInv : Inv g)
    (hF : g.furthestNode = none) :
    ∀ p ∈ (sourceStep g s).nodeInfo,
      p.1 = none ∨ (p.1 = some s ∧ p.2.distance = 0) := by
  have hsent : ∀ p ∈ g.nodeInfo, p.1 = none := by
    have := hInv.furthestOk
    unfold FurthestOk FurthestOkND at this
    rw [hF] at this
    exact this
  have hs' : ahas g.nodeInfo (some s) = false := by
    cases hh : ahas g.nodeInfo (some s)
    · rfl
    · exfalso
      have := mem_keys_of_ahas g.nodeInfo (some s) hh
      obtain ⟨p, hp, hpk⟩ := List.mem_map.mp this
      have := hsent p hp
      rw [this] at hpk
      cases hpk
  rw [sourceStep_neg g s hs']
  intro p hp
  rcases mem_aset_elim g.nodeInfo hInv.nodupKeys _ _ p hp with h1 | h1
  · right
    rw [h1]
    exact ⟨rfl, rfl⟩
  · exact Or.inl (hsent p h1.1)

theorem sourceStep_furthestOkND (g : Graph) (s : String) (hInv : Inv g)
    (m : String) (hF : g.furthestNode = some m) :
    FurthestOkND (sourceStep g s).nodeInfo (some m) := by
  have hfo := hInv.furthestOk
  unfold FurthestOk FurthestOkND at hfo
  rw [hF] at hfo
  obtain ⟨im, him, hdom⟩ := hfo
  by_cases hs : ahas g.nodeInfo (some s) = true
  · rw [sourceStep_pos g s hs]
    exact ⟨im, him, hdom⟩
  · have hs' : ahas g.nodeInfo (some s) = false := by simpa using hs
    have hms : some m ≠ some s := by
      intro he
      rw [← he] at hs'
      rw [ahas] at hs'
      rw [him] at hs'
      cases hs'
    rw [sourceStep_neg g s hs']
    refine ⟨im, ?_, ?_⟩
    · rw [aget_aset_ne _ _ _ _ hms]
      exact him
    · intro p hp hne
      rcases mem_aset_elim g.nodeInfo hInv.nodupKeys _ _ p hp with h1 | h1
      · have himm : (some m, im) ∈ g.nodeInfo := mem_of_aget_eq_some _ _ _ him
        have hd : 0 ≤ im.distance := by
          simpa using hInv.distNonneg (some m, im) himm (by simp)
        have ht : im.t < g.t := by
          simpa using hInv.tBound (some m, im) himm
        rw [h1, ltPair_rk_iff]
        change 0 < im.distance ∨ (0 = im.distance ∧ im.t < g.t)
        omega
      · exact hdom p h1.1 hne

theorem ni2_entry_spec (ni1 ni2 : NodeMap) (U : List Key) (td : Int)
    (hkeys : ni2.map (·.1) = ni1.map (·.1))
    (hnd : (ni1.map (·.1)).Nodup)
    (hout : ∀ k, k ∉ U → aget ni2 k = aget ni1 k)
    (hin : ∀ k ∈ U, ∀ i, aget ni1 k = some i →
      aget ni2 k = some { i with distance := i.distance + td })
    (p : Key × Info) (hp : p ∈ ni2) :
    ∃ i1, aget ni1 p.1 = some i1 ∧ p.2.t = i1.t ∧
      p.2.source = i1.source ∧
      (p.1 ∈ U → p.2.distance = i1.distance + td) ∧
      (p.1 ∉ U → p.2 = i1) := by
  have hnd2 : (ni2.map (·.1)).Nodup := by rw [hkeys]; exact hnd
  obtain ⟨k, i⟩ := p
  have hp2 : aget ni2 k = some i := aget_eq_some_of_mem ni2 hnd2 k i hp
  have hk1 : k ∈ ni1.map (·.1) := by
    rw [← hkeys]
    exact List.mem_map.mpr ⟨(k, i), hp, rfl⟩
  obtain ⟨i1, hi1⟩ :=
    Option.isSome_iff_exists.mp (aget_isSome_of_mem_keys ni1 k hk1)
  by_cases hu : k ∈ U
  · have hb := hin k hu i1 hi1
    rw [hp2] at hb
    injection hb with he
    exact ⟨i1, hi1, by rw [he], by rw [he], fun _ => by rw [he],
      fun hc => absurd hu hc⟩
  · have hb := hout k hu
    rw [hp2, hi1] at hb
    injection hb with he
    exact ⟨i1, hi1, by rw [he], by rw [he], fun hc => absurd hc hu,
      fun _ => he⟩

end DG

namespace DG

theorem aget_fst_eq_of_mem [DecidableEq κ] (m : List (κ × α))
    (nd : (m.map (·.1)).Nodup) (p : κ × α) (hp : p ∈ m) :
    aget m p.1 = some p.2 := by
  obtain ⟨k, v⟩ := p
  exact aget_eq_some_of_mem m nd k v hp

theorem addEdgeNew_inv (g1 : Graph) (oldF : Key) (s t : String)
    (d : Option String) (td : Int) (g' : Graph)
    (hpre : PreInv g1)
    (hF1 : g1.furthestNode = oldF)
    (hs : ahas g1.nodeInfo (some s) = true)
    (htd : 1 ≤ td)
    (ht : aget g1.nodeInfo (some t) = none)
    (hNone : oldF = none →
      ∀ p ∈ g1.nodeInfo, p.1 = none ∨ p.2.distance < td)
    (hSome : ∀ m, oldF = some m → FurthestOkND g1.nodeInfo (some m))
    (h : addEdgeNew g1 oldF s t d td = (g', none)) :
    Inv g' := by
  have hstne : (some s : Key) ≠ some t := by
    intro he
    rw [ahas, he, ht] at hs
    cases hs
  have htfalse : ahas g1.nodeInfo (some t) = false := by
    rw [ahas, ht]
    rfl
  set nt : Info := { source := some s, distance := td, t := g1.t, data := d }
    with hnt
  set ni2 : NodeMap := aset g1.nodeInfo (some t) nt with hni2
  have hkeys2 : ni2.map (·.1) = g1.nodeInfo.map (·.1) ++ [some t] :=
    keys_aset_of_not_ahas g1.nodeInfo (some t) nt htfalse
  have hnd2 : (ni2.map (·.1)).Nodup := nodup_keys_aset _ hpre.nodupKeys _ _
  have hgetT : aget ni2 (some t) = some nt := aget_aset_self _ _ _
  have hget_ne : ∀ k : Key, k ≠ some t → aget ni2 k = aget g1.nodeInfo k :=
    fun k hk => aget_aset_ne _ _ _ _ hk
  have hmem2 : ∀ p ∈ ni2, p = (some t, nt) ∨
      (p ∈ g1.nodeInfo ∧ p.1 ≠ some t) :=
    fun p hp => mem_aset_elim g1.nodeInfo hpre.nodupKeys _ _ p hp
  have huniq : ∀ p ∈ g1.nodeInfo, aget g1.nodeInfo p.1 = some p.2 :=
    fun p hp => aget_fst_eq_of_mem g1.nodeInfo hpre.nodupKeys p hp
  have hsent2 : aget ni2 none = some sentinelInfo := by
    rw [hget_ne none (by simp)]
    exact hpre.sentinel
  have hdist2 : ∀ p ∈ ni2, p.1 ≠ none → 0 ≤ p.2.distance := by
    intro p hp hne
    rcases hmem2 p hp with h1 | h1
    · rw [h1, hnt]
      show (0 : Int) ≤ td
      omega
    · exact hpre.distNonneg p h1.1 hne
  have hsrcd2 : ∀ p ∈ ni2, p.2.source ≠ none → 1 ≤ p.2.distance := by
    intro p hp hne
    rcases hmem2 p hp with h1 | h1
    · rw [h1, hnt]
      exact htd
    · exact hpre.srcDist p h1.1 hne
  have htb2 : ∀ p ∈ ni2, p.2.t < g1.t + 1 := by
    intro p hp
    rcases hmem2 p hp with h1 | h1
    · rw [h1, hnt]
      show g1.t < g1.t + 1
      omega
    · have := hpre.tBound p h1.1
      omega
  have htinj2 : ∀ p ∈ ni2, ∀ q ∈ ni2, p.2.t = q.2.t → p.1 = q.1 := by
    intro p hp q hq he
    rcases hmem2 p hp with h1 | h1 <;> rcases hmem2 q hq with h2 | h2
    · rw [h1, h2]
    · exfalso
      have := hpre.tBound q h2.1
      rw [h1] at he
      rw [hnt] at he
      simp only at he
      omega
    · exfalso
      have := hpre.tBound p h1.1
      rw [h2] at he
      rw [hnt] at he
      simp only at he
      omega
    · exact hpre.tInj p h1.1 q h2.1 he
  have hsp2 : ∀ p ∈ ni2, ∀ x, p.2.source = some x → ahas ni2 (some x) = true := by
    intro p hp x hx
    rw [ahas_iff_mem_keys, hkeys2]
    rcases hmem2 p hp with h1 | h1
    · rw [h1, hnt] at hx
      simp only at hx
      injection hx with hx2
      rw [← hx2]
      exact List.mem_append_left _ (mem_keys_of_ahas _ _ hs)
    · exact List.mem_append_left _
        (mem_keys_of_ahas _ _ (hpre.srcPresent p h1.1 x hx))
  -- destructure the execution
  rw [addEdgeNew] at h
  simp only [← hnt, ← hni2] at h
  split at h
  · simp at h
  · rename_i fi hfi
    split at h
    · rename_i hcmp
      have hg' : setFurthest
          { g1 with nodeInfo := ni2, t := g1.t + 1, heads := sadd g1.heads t }
          (some t) = g' := by
        have := congrArg Prod.fst h
        simpa using this
      rw [← hg']
      have hnode : (setFurthest
          { g1 with nodeInfo := ni2, t := g1.t + 1, heads := sadd g1.heads t }
          (some t)).nodeInfo = ni2 := by
        rw [setFurthest_nodeInfo]
      have htt : (setFurthest
          { g1 with nodeInfo := ni2, t := g1.t + 1, heads := sadd g1.heads t }
          (some t)).t = g1.t + 1 := by
        rw [setFurthest_t]
      refine ⟨⟨?_, ?_, ?_, ?_, ?_, ?_, ?_⟩, ?_⟩
      · rw [hnode]; exact hsent2
      · rw [hnode]; exact hnd2
      · rw [hnode]; exact hdist2
      · rw [hnode]; exact hsrcd2
      · rw [hnode, htt]; exact htb2
      · rw [hnode]; exact htinj2
      · rw [hnode]; exact hsp2
      · show FurthestOkND _ _
        rw [hnode, setFurthest_furthest]
        refine ⟨nt, hgetT, ?_⟩
        intro p hp hpne
        rcases hmem2 p hp with h1 | h1
        · exfalso
          apply hpne
          rw [h1]
        · cases hOF : oldF with
          | none =>
            have hfi2 : fi = sentinelInfo := by
              rw [hOF] at hfi
              rw [hsent2] at hfi
              injection hfi.symm
            rcases hNone hOF p h1.1 with h2 | h2
            · have : p.2 = sentinelInfo := by
                have := huniq p h1.1
                rw [h2] at this
                rw [hpre.sentinel] at this
                injection this with he2
                exact he2.symm
              rw [this, ltPair_rk_iff, hnt]
              change sentinelInfo.distance < td ∨ _
              left
              show (-1 : Int) < td
              omega
            · rw [ltPair_rk_iff, hnt]
              left
              exact h2
          | some m =>
            obtain ⟨im, him, hdom⟩ := hSome m hOF
            have hmt : (some m : Key) ≠ some t := by
              intro he
              rw [he, ht] at him
              cases him
            have hfi2 : fi = im := by
              rw [hOF, hget_ne _ hmt, him] at hfi
              injection hfi.symm
            by_cases hpm : p.1 = some m
            · have : p.2 = im := by
                have := huniq p h1.1
                rw [hpm, him] at this
                injection this with he2
                exact he2.symm
              rw [this, ltPair_rk_iff, hnt]
              left
              rw [← hfi2]
              exact hcmp
            · refine ltPair_trans (hdom p h1.1 hpm) ?_
              rw [ltPair_rk_iff, hnt]
              left
              rw [← hfi2]
              exact hcmp
    · rename_i hcmp
      have hg' : ({ g1 with nodeInfo := ni2, t := g1.t + 1, heads := sadd g1.heads t } : Graph) = g' := by
        have := congrArg Prod.fst h
        simpa using this
      rw [← hg']
      refine ⟨⟨hsent2, hnd2, hdist2, hsrcd2, htb2, htinj2, hsp2⟩, ?_⟩
      show FurthestOkND ni2 g1.furthestNode
      rw [hF1]
      cases hOF : oldF with
      | none =>
        exfalso
        have hfi2 : fi = sentinelInfo := by
          rw [hOF] at hfi
          rw [hsent2] at hfi
          injection hfi.symm
        rw [hfi2] at hcmp
        apply hcmp
        show sentinelInfo.distance < td
        change (-1 : Int) < td
        omega
      | some m =>
        obtain ⟨im, him, hdom⟩ := hSome m hOF
        have hmt : (some m : Key) ≠ some t := by
          intro he
          rw [he, ht] at him
          cases him
        have hfi2 : fi = im := by
          rw [hOF, hget_ne _ hmt, him] at hfi
          injection hfi.symm
        refine ⟨im, by rw [hget_ne _ hmt]; exact him, ?_⟩
        intro p hp hpne
        rcases hmem2 p hp with h1 | h1
        · rw [h1, ltPair_rk_iff, hnt]
          have himm : (some m, im) ∈ g1.nodeInfo :=
            mem_of_aget_eq_some _ _ _ him
          have htm : im.t < g1.t := hpre.tBound (some m, im) himm
          rw [← hfi2] at *
          simp only at hcmp ⊢
          omega
        · exact hdom p h1.1 hpne

end DG

namespace DG

theorem ltPair_lePair_trans {a b c : Int × Int} (h1 : ltPair a b)
    (h2 : lePair b c) : ltPair a c := by
  rcases h2 with h2 | h2
  · rw [← h2]
    exact h1
  · exact ltPair_trans h1 h2

theorem lePair_ltPair_trans {a b c : Int × Int} (h1 : lePair a b)
    (h2 : ltPair b c) : ltPair a c := by
  rcases h1 with h1 | h1
  · rw [h1]
    exact h2
  · exact ltPair_trans h1 h2

theorem addEdgeGraft_inv (g1 : Graph) (oldF : Key) (s t : String)
    (d : Option String) (td : Int) (g' : Graph)
    (hpre : PreInv g1)
    (hF1 : g1.furthestNode = oldF)
    (hs : ahas g1.nodeInfo (some s) = true)
    (htd : 1 ≤ td)
    (hti : ahas g1.nodeInfo (some t) = true)
    (haccP : (aget g1.nodeInfo oldF).isSome)
    (hdomOrT : ∀ ia, aget g1.nodeInfo oldF = some ia →
      ∀ p ∈ g1.nodeInfo, p.1 ≠ oldF → ltPair (rk p.2) (rk ia) ∨ p.1 = some t)
    (h : addEdgeGraft g1 oldF s t d td = (g', none)) :
    Inv g' := by
  obtain ⟨cti, hcti⟩ := Option.isSome_iff_exists.mp hti
  obtain ⟨ia0, hia0⟩ := Option.isSome_iff_exists.mp haccP
  have huniq : ∀ p ∈ g1.nodeInfo, aget g1.nodeInfo p.1 = some p.2 :=
    fun p hp => aget_fst_eq_of_mem g1.nodeInfo hpre.nodupKeys p hp
  simp only [addEdgeGraft] at h
  split at h
  · simp at h
  · rename_i follows hfol
    obtain ⟨hfnd, hfnone, hftgt, hftrue⟩ :=
      computeFollows_ok g1.nodeInfo g1.heads t hti follows hfol
    split at h
    · simp at h
    · rename_i ni2 hbump
      -- properties of the list of updated nodes
      have hUnodup : ((follows.filter (fun x => x.2)).map (fun x => x.1)).Nodup := by
        have hsub : ((follows.filter (fun x => x.2)).map (fun x => x.1)).Sublist
            (follows.map (fun x => x.1)) :=
          (List.filter_sublist follows).map _
        exact hfnd.sublist hsub
      have hUpres : ∀ k ∈ (follows.filter (fun x => x.2)).map (fun x => x.1),
          ahas g1.nodeInfo k = true := by
        intro k hk
        obtain ⟨p, hpf, hpk⟩ := List.mem_map.mp hk
        have := List.mem_filter.mp hpf
        rw [← hpk]
        exact hftrue p this.1 (by simpa using this.2)
      have hUT : (some t : Key) ∈ (follows.filter (fun x => x.2)).map (fun x => x.1) := by
        refine List.mem_map.mpr ⟨(some t, true), ?_, rfl⟩
        refine List.mem_filter.mpr ⟨mem_of_aget_eq_some _ _ _ hftgt, by simp⟩
      have hUnone : (none : Key) ∉ (follows.filter (fun x => x.2)).map (fun x => x.1) := by
        intro hc
        obtain ⟨p, hpf, hpk⟩ := List.mem_map.mp hc
        have hmf := List.mem_filter.mp hpf
        have := aget_fst_eq_of_mem follows hfnd p hmf.1
        rw [hpk, hfnone] at this
        injection this with he
        rw [← he] at hmf
        simp at hmf
      -- bumpAll specification transferred to ni2
      obtain ⟨m2, hrun, hkeys2, hout, hin⟩ :=
        bumpAll_ok td ((follows.filter (fun x => x.2)).map (fun x => x.1))
          g1.nodeInfo hpre.nodupKeys hUnodup hUpres
      rw [hbump] at hrun
      injection hrun with he2
      subst he2
      have hnd2 : (ni2.map (·.1)).Nodup := by
        rw [hkeys2]
        exact hpre.nodupKeys
      have huniq2 : ∀ p ∈ ni2, aget ni2 p.1 = some p.2 :=
        fun p hp => aget_fst_eq_of_mem ni2 hnd2 p hp
      have hcorr : ∀ p ∈ ni2, ∃ i1, aget g1.nodeInfo p.1 = some i1 ∧
          p.2.t = i1.t ∧ p.2.source = i1.source ∧
          (p.1 ∈ (follows.filter (fun x => x.2)).map (fun x => x.1) →
            p.2.distance = i1.distance + td) ∧
          (p.1 ∉ (follows.filter (fun x => x.2)).map (fun x => x.1) →
            p.2 = i1) :=
        fun p hp => ni2_entry_spec g1.nodeInfo ni2 _ td hkeys2
          hpre.nodupKeys hout hin p hp
      have htinj2 : ∀ p ∈ ni2, ∀ q ∈ ni2, p.2.t = q.2.t → p.1 = q.1 := by
        intro p hp q hq he
        obtain ⟨i1p, hi1p, htp, _, _, _⟩ := hcorr p hp
        obtain ⟨i1q, hi1q, htq, _, _, _⟩ := hcorr q hq
        exact hpre.tInj (p.1, i1p) (mem_of_aget_eq_some _ _ _ hi1p)
          (q.1, i1q) (mem_of_aget_eq_some _ _ _ hi1q) (by
            simp only
            rw [← htp, ← htq]
            exact he)
      -- the bumped target info
      have hctid : 0 ≤ cti.distance :=
        hpre.distNonneg (some t, cti) (mem_of_aget_eq_some _ _ _ hcti)
          (by simp)
      have hcti2 : aget ni2 (some t) = some { cti with distance := cti.distance + td } :=
        hin (some t) hUT cti hcti
      -- the reduce accumulator is present in ni2
      have hia2 : ∃ ia2, aget ni2 oldF = some ia2 ∧ lePair (rk ia0) (rk ia2) ∧
          (oldF ∉ (follows.filter (fun x => x.2)).map (fun x => x.1) → ia2 = ia0) := by
        by_cases hu : oldF ∈ (follows.filter (fun x => x.2)).map (fun x => x.1)
        · refine ⟨{ ia0 with distance := ia0.distance + td }, hin oldF hu ia0 hia0,
            ?_, fun hc => absurd hu hc⟩
          right
          rw [ltPair_rk_iff]
          left
          simp only
          omega
        · exact ⟨ia0, by rw [hout oldF hu]; exact hia0, Or.inl rfl, fun _ => rfl⟩
      obtain ⟨ia2, hia2get, hia2le, hia2eq⟩ := hia2
      -- the fold that recomputes the furthest node
      obtain ⟨ir, hirget, hirmem, hir_nlt_acc, hirall⟩ :=
        foldl_pickBetter_spec ni2
          ((follows.filter (fun x => x.2)).map (fun x => x.1)) oldF ia2
          (fun x hx => by
            rw [Option.isSome_iff_exists]
            obtain ⟨i1, hi1⟩ := Option.isSome_iff_exists.mp
              (show (aget g1.nodeInfo x).isSome from hUpres x hx)
            exact ⟨_, hin x hx i1 hi1⟩)
          hia2get
      -- the new furthest node is a real node
      have hnewFne : ((follows.filter (fun x => x.2)).map (fun x => x.1)).foldl
          (pickBetter ni2) oldF ≠ none := by
        intro hc
        rw [hc] at hirget
        rw [hout none hUnone, hpre.sentinel] at hirget
        injection hirget with he3
        have := hirall (some t) hUT _ hcti2
        rw [← he3] at this
        apply this
        rw [ltPair_rk_iff]
        left
        change sentinelInfo.distance < cti.distance + td
        show (-1 : Int) < cti.distance + td
        omega
      split at h
      · simp at h
      · rename_i ti hti3
        have hg'2 : ({ setFurthest { g1 with nodeInfo := ni2 }
            (((follows.filter (fun x => x.2)).map (fun x => x.1)).foldl
              (pickBetter ni2) oldF) with
            nodeInfo := aset (setFurthest { g1 with nodeInfo := ni2 }
              (((follows.filter (fun x => x.2)).map (fun x => x.1)).foldl
                (pickBetter ni2) oldF)).nodeInfo (some t)
              { ti with source := some s, data := d } } : Graph) = g' := by
          have := congrArg Prod.fst h
          simpa using this
        rw [setFurthest_nodeInfo] at hti3
        have hti_eq : ti = { cti with distance := cti.distance + td } := by
          rw [hti3] at hcti2
          injection hcti2
        -- the final node map
        rw [← hg'2]
        have hfmdef : (aset (setFurthest { g1 with nodeInfo := ni2 }
            (((follows.filter (fun x => x.2)).map (fun x => x.1)).foldl
              (pickBetter ni2) oldF)).nodeInfo (some t)
            { ti with source := some s, data := d }) =
            aset ni2 (some t) { ti with source := some s, data := d } := by
          rw [setFurthest_nodeInfo]
        rw [hfmdef]
        set fm : NodeMap := aset ni2 (some t) { ti with source := some s, data := d }
          with hfm
        have htihas : ahas ni2 (some t) = true := by
          rw [ahas, hti3]
          rfl
        have hkeysfm : fm.map (·.1) = ni2.map (·.1) :=
          keys_aset_of_ahas ni2 (some t) _ htihas
        have hndfm : (fm.map (·.1)).Nodup := by
          rw [hkeysfm]
          exact hnd2
        have hmemfm : ∀ p ∈ fm, p = (some t, { ti with source := some s, data := d }) ∨
            (p ∈ ni2 ∧ p.1 ≠ some t) :=
          fun p hp => mem_aset_elim ni2 hnd2 _ _ p hp
        -- rank-preserving correspondence between fm and ni2
        have hrkcorr : ∀ p ∈ fm, ∃ q, q ∈ ni2 ∧ q.1 = p.1 ∧ rk q.2 = rk p.2 ∧
            q.2.t = p.2.t := by
          intro p hp
          rcases hmemfm p hp with h1 | h1
          · refine ⟨(some t, ti), mem_of_aget_eq_some _ _ _ hti3, ?_, ?_, ?_⟩
            · rw [h1]
            · rw [h1]
              rfl
            · rw [h1]
          · exact ⟨p, h1.1, rfl, rfl, rfl⟩
        constructor
        constructor
        -- sentinel
        · show aget fm none = some sentinelInfo
          rw [hfm, aget_aset_ne _ _ _ _ (by simp), hout none hUnone]
          exact hpre.sentinel
        -- nodup keys
        · exact hndfm
        -- distNonneg
        · intro p hp hne
          rcases hmemfm p hp with h1 | h1
          · rw [h1, hti_eq]
            show 0 ≤ cti.distance + td
            omega
          · obtain ⟨i1, hi1, _, _, hbin, hbout⟩ := hcorr p h1.1
            have h0 : 0 ≤ i1.distance :=
              hpre.distNonneg (p.1, i1) (mem_of_aget_eq_some _ _ _ hi1) hne
            by_cases hu : p.1 ∈ (follows.filter (fun x => x.2)).map (fun x => x.1)
            · rw [hbin hu]
              omega
            · rw [hbout hu]
              exact h0
        -- srcDist
        · intro p hp hne
          rcases hmemfm p hp with h1 | h1
          · rw [h1, hti_eq]
            show 1 ≤ cti.distance + td
            omega
          · obtain ⟨i1, hi1, _, hsrc, hbin, hbout⟩ := hcorr p h1.1
            have h0 : 1 ≤ i1.distance := by
              refine hpre.srcDist (p.1, i1) (mem_of_aget_eq_some _ _ _ hi1) ?_
              show i1.source ≠ none
              rw [← hsrc]
              exact hne
            by_cases hu : p.1 ∈ (follows.filter (fun x => x.2)).map (fun x => x.1)
            · rw [hbin hu]
              omega
            · rw [hbout hu]
              exact h0
        -- tBound
        · intro p hp
          have hbound : p.2.t < g1.t := by
            obtain ⟨q, hq, _, _, hqt⟩ := hrkcorr p hp
            obtain ⟨i1, hi1, ht1, _, _, _⟩ := hcorr q hq
            rw [← hqt, ht1]
            exact hpre.tBound (q.1, i1) (mem_of_aget_eq_some _ _ _ hi1)
          show p.2.t < (setFurthest { g1 with nodeInfo := ni2 }
            (((follows.filter (fun x => x.2)).map (fun x => x.1)).foldl
              (pickBetter ni2) oldF)).t
          rw [setFurthest_t]
          exact hbound
        -- tInj
        · intro p hp q hq he
          obtain ⟨p2, hp2, hpk, _, hpt⟩ := hrkcorr p hp
          obtain ⟨q2, hq2, hqk, _, hqt⟩ := hrkcorr q hq
          rw [← hpk, ← hqk]
          refine htinj2 p2 hp2 q2 hq2 ?_
          rw [hpt, hqt]
          exact he
        -- srcPresent
        · intro p hp x hx
          rw [ahas_iff_mem_keys, hkeysfm, hkeys2]
          rcases hmemfm p hp with h1 | h1
          · have : p.2.source = some s := by
              rw [h1]
            rw [this] at hx
            injection hx with he4
            rw [← he4]
            exact mem_keys_of_ahas _ _ hs
          · obtain ⟨i1, hi1, _, hsrc, _, _⟩ := hcorr p h1.1
            refine mem_keys_of_ahas _ _ (hpre.srcPresent (p.1, i1)
              (mem_of_aget_eq_some _ _ _ hi1) x ?_)
            show i1.source = some x
            rw [← hsrc]
            exact hx
        -- FurthestOk
        · show FurthestOkND _ _
          rw [setFurthest_furthest]
          cases hnf : ((follows.filter (fun x => x.2)).map (fun x => x.1)).foldl
              (pickBetter ni2) oldF with
          | none => exact absurd hnf hnewFne
          | some rs =>
            rw [hnf] at hirget
            have hirfm : ∃ ir2, aget fm (some rs) = some ir2 ∧ rk ir2 = rk ir := by
              by_cases hrt : (some rs : Key) = some t
              · rw [hrt] at hirget
                rw [hti3] at hirget
                injection hirget with he5
                refine ⟨{ ti with source := some s, data := d }, ?_, ?_⟩
                · rw [hrt, hfm]
                  exact aget_aset_self _ _ _
                · rw [← he5]
                  rfl
              · exact ⟨ir, by rw [hfm, aget_aset_ne _ _ _ _ hrt]; exact hirget, rfl⟩
            obtain ⟨ir2, hir2get, hir2rk⟩ := hirfm
            refine ⟨ir2, hir2get, ?_⟩
            intro p hp hpne
            rw [hir2rk]
            obtain ⟨q, hq, hqk, hqrk, _⟩ := hrkcorr p hp
            rw [← hqrk]
            have hqne : q.1 ≠ some rs := by
              rw [hqk]
              exact hpne
            by_cases hu : q.1 ∈ (follows.filter (fun x => x.2)).map (fun x => x.1)
            · have hnot := hirall q.1 hu q.2 (huniq2 q hq)
              refine ltPair_of_ne hnot ?_
              intro hrkeq
              apply hqne
              refine htinj2 q hq (some rs, ir) (mem_of_aget_eq_some _ _ _ hirget) ?_
              have : -(q.2.t : Int) = -(ir.t : Int) := congrArg Prod.snd hrkeq
              simp only
              omega
            · have hqg1 : (q.1, q.2) ∈ g1.nodeInfo := by
                have := huniq2 q hq
                rw [hout q.1 hu] at this
                exact mem_of_aget_eq_some _ _ _ this
              by_cases hof : q.1 = oldF
              · have hq2ia0 : q.2 = ia0 := by
                  have := huniq2 q hq
                  rw [hof, hout oldF (by rw [← hof]; exact hu), hia0] at this
                  injection this with he6
                  exact he6.symm
                have hia2ia0 : ia2 = ia0 := hia2eq (by rw [← hof]; exact hu)
                rw [hq2ia0, ← hia2ia0]
                refine ltPair_of_ne hir_nlt_acc ?_
                intro hrkeq
                apply hqne
                rw [hof]
                refine htinj2 (oldF, ia2) (mem_of_aget_eq_some _ _ _ hia2get)
                  (some rs, ir) (mem_of_aget_eq_some _ _ _ hirget) ?_
                have hsnd : -(ia2.t : Int) = -(ir.t : Int) :=
                  congrArg Prod.snd hrkeq
                simp only
                omega
              · rcases hdomOrT ia0 hia0 (q.1, q.2) hqg1 hof with h2 | h2
                · refine ltPair_lePair_trans (ltPair_lePair_trans h2 hia2le) ?_
                  exact (not_ltPair_iff _ _).mp hir_nlt_acc
                · exact absurd hu (by rw [show q.1 = some t from h2]; simp [hUT])

end DG

namespace DG

theorem rk_clearSrc (k : String) (i : Info) : rk (clearSrc k i) = rk i := by
  unfold clearSrc
  split <;> rfl

theorem clearSrc_t (k : String) (i : Info) : (clearSrc k i).t = i.t := by
  unfold clearSrc
  split <;> rfl

theorem clearSrc_distance (k : String) (i : Info) :
    (clearSrc k i).distance = i.distance := by
  unfold clearSrc
  split <;> rfl

theorem removeNode_inv (g : Graph) (k : String) (hInv : Inv g) :
    Inv (removeNode g k) := by
  have huniq : ∀ p ∈ g.nodeInfo, aget g.nodeInfo p.1 = some p.2 :=
    fun p hp => aget_fst_eq_of_mem g.nodeInfo hInv.nodupKeys p hp
  set ni : NodeMap := adel g.nodeInfo (some k) with hni
  set ni2 : NodeMap := ni.map (fun p => (p.1, clearSrc k p.2)) with hni2
  have hkeys : ni2.map (·.1) = ni.map (·.1) := keys_map_snd ni _
  have hndni : (ni.map (·.1)).Nodup :=
    hInv.nodupKeys.sublist (keys_adel_sublist g.nodeInfo (some k))
  have hnd2 : (ni2.map (·.1)).Nodup := by
    rw [hkeys]
    exact hndni
  have hgetmap : ∀ x : Key, aget ni2 x = (aget ni x).map (clearSrc k) :=
    fun x => aget_map_snd ni _ x
  have hget_ne : ∀ x : Key, x ≠ some k →
      aget ni2 x = (aget g.nodeInfo x).map (clearSrc k) := by
    intro x hx
    rw [hgetmap, hni, aget_adel_ne _ _ _ hx]
  have hgetk : aget ni2 (some k) = none := by
    rw [hgetmap, hni, aget_adel_self _ hInv.nodupKeys]
    rfl
  have horig : ∀ p ∈ ni2, ∃ q, q ∈ g.nodeInfo ∧ p.1 = q.1 ∧
      p.2 = clearSrc k q.2 := by
    intro p hp
    obtain ⟨q, hq, hqe⟩ := List.mem_map.mp hp
    exact ⟨q, mem_of_mem_adel _ _ _ hq, by rw [← hqe], by rw [← hqe]⟩
  have hsent2 : aget ni2 none = some sentinelInfo := by
    rw [hget_ne none (by simp), hInv.sentinel]
    rfl
  have hdist2 : ∀ p ∈ ni2, p.1 ≠ none → 0 ≤ p.2.distance := by
    intro p hp hne
    obtain ⟨q, hq, hk1, hk2⟩ := horig p hp
    rw [hk2, clearSrc_distance]
    exact hInv.distNonneg q hq (by rw [← hk1]; exact hne)
  have hsrcd2 : ∀ p ∈ ni2, p.2.source ≠ none → 1 ≤ p.2.distance := by
    intro p hp hne
    obtain ⟨q, hq, hk1, hk2⟩ := horig p hp
    rw [hk2, clearSrc_distance]
    refine hInv.srcDist q hq ?_
    rw [hk2] at hne
    unfold clearSrc at hne
    by_cases hc : q.2.source = some k
    · rw [if_pos hc] at hne
      simp at hne
    · rw [if_neg hc] at hne
      exact hne
  have htb2 : ∀ p ∈ ni2, p.2.t < g.t := by
    intro p hp
    obtain ⟨q, hq, _, hk2⟩ := horig p hp
    rw [hk2, clearSrc_t]
    exact hInv.tBound q hq
  have htinj2 : ∀ p ∈ ni2, ∀ q ∈ ni2, p.2.t = q.2.t → p.1 = q.1 := by
    intro p hp q hq he
    obtain ⟨p0, hp0, hpk, hpe⟩ := horig p hp
    obtain ⟨q0, hq0, hqk, hqe⟩ := horig q hq
    rw [hpk, hqk]
    refine hInv.tInj p0 hp0 q0 hq0 ?_
    rw [hpe, clearSrc_t] at he
    rw [hqe, clearSrc_t] at he
    exact he
  have hsp2 : ∀ p ∈ ni2, ∀ x, p.2.source = some x →
      ahas ni2 (some x) = true := by
    intro p hp x hx
    obtain ⟨q, hq, _, hk2⟩ := horig p hp
    have hq0 : q.2.source = some x ∧ x ≠ k := by
      rw [hk2] at hx
      unfold clearSrc at hx
      by_cases hc : q.2.source = some k
      · rw [if_pos hc] at hx
        simp at hx
      · rw [if_neg hc] at hx
        refine ⟨hx, ?_⟩
        intro he
        rw [he] at hx
        exact hc hx
    have := hInv.srcPresent q hq x hq0.1
    rw [ahas, hget_ne (some x) (by simpa using hq0.2)]
    rw [ahas] at this
    obtain ⟨i, hi⟩ := Option.isSome_iff_exists.mp this
    rw [hi]
    rfl
  have huniq2 : ∀ p ∈ ni2, aget ni2 p.1 = some p.2 :=
    fun p hp => aget_fst_eq_of_mem ni2 hnd2 p hp
  have hrepr : removeNode g k =
      (if some k = g.furthestNode then
        setFurthest { g with nodeInfo := ni2 }
          ((ni2.map (·.1)).foldl (pickBetter ni2)
            ((aget g.nodeInfo (some k)).bind (·.source)))
      else { g with nodeInfo := ni2 }) := rfl
  rw [hrepr]
  by_cases hif : some k = g.furthestNode
  · rw [if_pos hif]
    -- the furthest node was removed: it is recomputed over all keys
    have hlist : ∀ x ∈ ni2.map (·.1), (aget ni2 x).isSome :=
      fun x hx => aget_isSome_of_mem_keys ni2 x hx
    have hlistne : ni2.map (·.1) ≠ [] := by
      intro hc
      have : (none : Key) ∈ ni2.map (·.1) :=
        mem_keys_of_ahas ni2 none (by rw [ahas, hsent2]; rfl)
      rw [hc] at this
      simp at this
    have hfold : ∃ ir, aget ni2 ((ni2.map (·.1)).foldl (pickBetter ni2)
        ((aget g.nodeInfo (some k)).bind (·.source))) = some ir ∧
        ∀ x ∈ ni2.map (·.1), ∀ ix, aget ni2 x = some ix →
          ¬ ltPair (rk ir) (rk ix) := by
      cases hacc : aget ni2 ((aget g.nodeInfo (some k)).bind (·.source)) with
      | none =>
        obtain ⟨ir, h1, _, h3⟩ :=
          foldl_pickBetter_absent ni2 (ni2.map (·.1)) _ hacc hlist hlistne
        exact ⟨ir, h1, h3⟩
      | some ia =>
        obtain ⟨ir, h1, _, _, h4⟩ :=
          foldl_pickBetter_spec ni2 (ni2.map (·.1)) _ ia hlist hacc
        exact ⟨ir, h1, h4⟩
    obtain ⟨ir, hirget, hirall⟩ := hfold
    refine ⟨⟨?_, ?_, ?_, ?_, ?_, ?_, ?_⟩, ?_⟩
    · rw [setFurthest_nodeInfo]
      exact hsent2
    · rw [setFurthest_nodeInfo]
      exact hnd2
    · rw [setFurthest_nodeInfo]
      exact hdist2
    · rw [setFurthest_nodeInfo]
      exact hsrcd2
    · rw [setFurthest_nodeInfo, setFurthest_t]
      exact htb2
    · rw [setFurthest_nodeInfo]
      exact htinj2
    · rw [setFurthest_nodeInfo]
      exact hsp2
    · show FurthestOkND _ _
      rw [setFurthest_nodeInfo, setFurthest_furthest]
      cases hnf : (ni2.map (·.1)).foldl (pickBetter ni2)
          ((aget g.nodeInfo (some k)).bind (·.source)) with
      | none =>
        rw [hnf] at hirget
        have hirsent : ir = sentinelInfo := by
          rw [hsent2] at hirget
          injection hirget with he
          exact he.symm
        intro p hp
        by_contra hc
        have h1 := hirall p.1 (List.mem_map.mpr ⟨p, hp, rfl⟩) p.2 (huniq2 p hp)
        apply h1
        rw [hirsent, ltPair_rk_iff]
        left
        have := hdist2 p hp hc
        change sentinelInfo.distance < p.2.distance
        show (-1 : Int) < p.2.distance
        omega
      | some rs =>
        rw [hnf] at hirget
        refine ⟨ir, hirget, ?_⟩
        intro p hp hpne
        have h1 := hirall p.1 (List.mem_map.mpr ⟨p, hp, rfl⟩) p.2 (huniq2 p hp)
        refine ltPair_of_ne h1 ?_
        intro hrkeq
        apply hpne
        refine htinj2 p hp (some rs, ir) (mem_of_aget_eq_some _ _ _ hirget) ?_
        have hsnd : -(p.2.t : Int) = -(ir.t : Int) := congrArg Prod.snd hrkeq
        simp only
        omega
  · rw [if_neg hif]
    refine ⟨⟨hsent2, hnd2, hdist2, hsrcd2, htb2, htinj2, hsp2⟩, ?_⟩
    show FurthestOkND ni2 g.furthestNode
    have hfo := hInv.furthestOk
    unfold FurthestOk FurthestOkND at hfo
    cases hF : g.furthestNode with
    | none =>
      rw [hF] at hfo
      intro p hp
      obtain ⟨q, hq, hk1, _⟩ := horig p hp
      rw [hk1]
      exact hfo q hq
    | some m =>
      rw [hF] at hfo
      obtain ⟨im, him, hdom⟩ := hfo
      have hmk : (some m : Key) ≠ some k := by
        intro he
        apply hif
        rw [hF, ← he]
      refine ⟨clearSrc k im, ?_, ?_⟩
      · rw [hget_ne (some m) hmk, him]
        rfl
      · intro p hp hpne
        obtain ⟨q, hq, hk1, hk2⟩ := horig p hp
        rw [hk2, rk_clearSrc, rk_clearSrc]
        refine hdom q hq ?_
        rw [← hk1]
        exact hpne

end DG

namespace DG

theorem addEdge_inv (g : Graph) (s t : String) (d : Option String)
    (g' : Graph) (hInv : Inv g) (h : addEdge g s t d = (g', none)) :
    Inv g' := by
  have hpre1 : PreInv (sourceStep g s) := sourceStep_preInv g s hInv.toPreInv
  have hs1 : ahas (sourceStep g s).nodeInfo (some s) = true :=
    sourceStep_has_source g s
  simp only [addEdge] at h
  split at h
  · simp at h
  · rename_i si hsi
    have hsd : 0 ≤ si.distance :=
      hpre1.distNonneg (some s, si) (mem_of_aget_eq_some _ _ _ hsi) (by simp)
    have htd : 1 ≤ si.distance + 1 := by omega
    split at h
    · rename_i cti hcti
      split at h
      · simp at h
      · rename_i hok
        have htihas : ahas (sourceStep g s).nodeInfo (some t) = true := by
          rw [ahas, hcti]
          rfl
        have hsall : g.furthestNode = none →
            ∀ p ∈ (sourceStep g s).nodeInfo,
              p.1 = none ∨ (p.1 = some s ∧ p.2.distance = 0) :=
          fun hF => sourceStep_all_sentinel g s hInv hF
        have hacc : (aget (sourceStep g s).nodeInfo g.furthestNode).isSome := by
          cases hF : g.furthestNode with
          | none =>
            rw [hpre1.sentinel]
            rfl
          | some m =>
            obtain ⟨im, him, _⟩ := sourceStep_furthestOkND g s hInv m hF
            rw [him]
            rfl
        refine addEdgeGraft_inv (sourceStep g s) g.furthestNode s t d
          (si.distance + 1) g' hpre1 (sourceStep_furthest g s) hs1 htd
          htihas hacc ?_ h
        intro ia hia p hp hpne
        cases hF : g.furthestNode with
        | none =>
          right
          rcases hsall hF p hp with h1 | h1
          · exact absurd h1 (by rw [hF] at hpne; exact hpne)
          · have hts : s = t := by
              have htm := mem_of_aget_eq_some _ _ _ hcti
              rcases hsall hF (some t, cti) htm with h2 | h2
              · simp at h2
              · simp only at h2
                injection h2.1 with he
                exact he.symm
            rw [h1.1, hts]
        | some m =>
          left
          obtain ⟨im, him, hdom⟩ := sourceStep_furthestOkND g s hInv m hF
          have hiaim : ia = im := by
            rw [hF, him] at hia
            injection hia with he
            exact he.symm
          rw [hiaim]
          refine hdom p hp ?_
          rw [hF] at hpne
          exact hpne
    · rename_i hti0
      refine addEdgeNew_inv (sourceStep g s) g.furthestNode s t d
        (si.distance + 1) g' hpre1 (sourceStep_furthest g s) hs1 htd hti0
        ?_ (fun m hF => sourceStep_furthestOkND g s hInv m hF) h
      intro hF p hp
      rcases sourceStep_all_sentinel g s hInv hF p hp with h1 | h1
      · exact Or.inl h1
      · right
        rw [h1.2]
        omega

theorem stepOp_inv (g : Graph) (op : Op) (g' : Graph) (hInv : Inv g)
    (h : stepOp g op = (g', none)) : Inv g' := by
  cases op with
  | add s t d => exact addEdge_inv g s t d g' hInv h
  | remove k =>
    simp only [stepOp, Prod.mk.injEq] at h
    rw [← h.1]
    exact removeNode_inv g k hInv

theorem Inv_init : Inv Graph.init := by
  refine ⟨⟨rfl, by simp [Graph.init], ?_, ?_, ?_, ?_, ?_⟩, ?_⟩
  · intro p hp hne
    simp only [Graph.init, List.mem_singleton] at hp
    rw [hp] at hne
    simp at hne
  · intro p hp hne
    simp only [Graph.init, List.mem_singleton] at hp
    rw [hp] at hne
    simp [sentinelInfo] at hne
  · intro p hp
    simp only [Graph.init, List.mem_singleton] at hp
    rw [hp]
    show sentinelInfo.t < 1
    show (0 : Nat) < 1
    omega
  · intro p hp q hq _
    simp only [Graph.init, List.mem_singleton] at hp hq
    rw [hp, hq]
  · intro p hp x hx
    simp only [Graph.init, List.mem_singleton] at hp
    rw [hp] at hx
    simp [sentinelInfo] at hx
  · show FurthestOkND Graph.init.nodeInfo Graph.init.furthestNode
    intro p hp
    simp only [Graph.init, List.mem_singleton] at hp
    rw [hp]

theorem runOps_inv : ∀ (ops : List Op) (g0 g : Graph), Inv g0 →
    runOps g0 ops = some g → Inv g := by
  intro ops
  induction ops with
  | nil =>
    intro g0 g h0 h
    simp only [runOps, Option.some.injEq] at h
    rw [← h]
    exact h0
  | cons op rest ih =>
    intro g0 g h0 h
    rw [runOps] at h
    cases hst : stepOp g0 op with
    | mk g1 e =>
      rw [hst] at h
      cases e with
      | none => exact ih g1 g (stepOp_inv g0 op g1 h0 hst) h
      | some err => simp at h

end DG

/-! ### Claim C4 -/

open DG in
/-- C4: after every successful sequence of addEdge and removeNode calls,
`furthestNode` is the sentinel when the graph holds no node, and otherwise
the present node of maximum `distance`, ties resolved to the smallest
`_t` (earliest arrival); the removal fallback to the former source or the
sentinel is subsumed by this characterization. -/
theorem furthest_node_tracks_max (ops : List Op) (g : Graph)
    (h : runOps Graph.init ops = some g) : FurthestOk g :=
  (runOps_inv ops Graph.init g Inv_init h).furthestOk

open DG in
/-- Witness for C4: a run that adds an edge and then removes the furthest
node (exercising the recompute-with-fallback path). -/
theorem furthest_node_tracks_max_witness :
    FurthestOk ((runOps Graph.init
      [Op.add "a" "b" none, Op.remove "b"]).getD Graph.init) :=
  furthest_node_tracks_max [Op.add "a" "b" none, Op.remove "b"] _ rfl

namespace DG

theorem addEdgeNew_spec (g1 : Graph) (oldF : Key) (s t : String)
    (d : Option String) (td : Int) (g' : Graph)
    (h : addEdgeNew g1 oldF s t d td = (g', none)) :
    g'.heads = sadd g1.heads t ∧
    g'.nodeInfo = aset g1.nodeInfo (some t)
      { source := some s, distance := td, t := g1.t, data := d } ∧
    g'.t = g1.t + 1 := by
  rw [addEdgeNew] at h
  split at h
  · simp at h
  · rename_i fi hfi
    split at h
    · have hg' := congrArg Prod.fst h
      simp only at hg'
      rw [← hg']
      refine ⟨?_, ?_, ?_⟩
      · rw [setFurthest_heads]
      · rw [setFurthest_nodeInfo]
      · rw [setFurthest_t]
    · have hg' := congrArg Prod.fst h
      simp only at hg'
      rw [← hg']
      exact ⟨rfl, rfl, rfl⟩

theorem addEdgeGraft_spec (g1 : Graph) (oldF : Key) (s t : String)
    (d : Option String) (td : Int) (g' : Graph)
    (hpre : PreInv g1) (hti : ahas g1.nodeInfo (some t) = true)
    (h : addEdgeGraft g1 oldF s t d td = (g', none)) :
    g'.heads = g1.heads ∧ g'.t = g1.t ∧
    g'.nodeInfo.map (·.1) = g1.nodeInfo.map (·.1) ∧
    (∃ ti2, aget g'.nodeInfo (some t) = some ti2 ∧ ti2.source = some s) ∧
    (∀ p ∈ g'.nodeInfo, p.1 ≠ some t →
      ∃ i1, aget g1.nodeInfo p.1 = some i1 ∧ p.2.source = i1.source) := by
  simp only [addEdgeGraft] at h
  split at h
  · simp at h
  · rename_i follows hfol
    obtain ⟨hfnd, hfnone, hftgt, hftrue⟩ :=
      computeFollows_ok g1.nodeInfo g1.heads t hti follows hfol
    split at h
    · simp at h
    · rename_i ni2 hbump
      have hUnodup : ((follows.filter (fun x => x.2)).map (fun x => x.1)).Nodup := by
        have hsub : ((follows.filter (fun x => x.2)).map (fun x => x.1)).Sublist
            (follows.map (fun x => x.1)) :=
          (List.filter_sublist follows).map _
        exact hfnd.sublist hsub
      have hUpres : ∀ k ∈ (follows.filter (fun x => x.2)).map (fun x => x.1),
          ahas g1.nodeInfo k = true := by
        intro k hk
        obtain ⟨p, hpf, hpk⟩ := List.mem_map.mp hk
        have := List.mem_filter.mp hpf
        rw [← hpk]
        exact hftrue p this.1 (by simpa using this.2)
      obtain ⟨m2, hrun, hkeys2, hout, hin⟩ :=
        bumpAll_ok td ((follows.filter (fun x => x.2)).map (fun x => x.1))
          g1.nodeInfo hpre.nodupKeys hUnodup hUpres
      rw [hbump] at hrun
      injection hrun with he2
      subst he2
      have hnd2 : (ni2.map (·.1)).Nodup := by
        rw [hkeys2]
        exact hpre.nodupKeys
      have hcorr : ∀ p ∈ ni2, ∃ i1, aget g1.nodeInfo p.1 = some i1 ∧
          p.2.t = i1.t ∧ p.2.source = i1.source ∧
          (p.1 ∈ (follows.filter (fun x => x.2)).map (fun x => x.1) →
            p.2.distance = i1.distance + td) ∧
          (p.1 ∉ (follows.filter (fun x => x.2)).map (fun x => x.1) →
            p.2 = i1) :=
        fun p hp => ni2_entry_spec g1.nodeInfo ni2 _ td hkeys2
          hpre.nodupKeys hout hin p hp
      split at h
      · simp at h
      · rename_i ti hti3
        rw [setFurthest_nodeInfo] at hti3
        have hg' : ({ setFurthest { g1 with nodeInfo := ni2 }
            (((follows.filter (fun x => x.2)).map (fun x => x.1)).foldl
              (pickBetter ni2) oldF) with
            nodeInfo := aset (setFurthest { g1 with nodeInfo := ni2 }
              (((follows.filter (fun x => x.2)).map (fun x => x.1)).foldl
                (pickBetter ni2) oldF)).nodeInfo (some t)
              { ti with source := some s, data := d } } : Graph) = g' := by
          have := congrArg Prod.fst h
          simpa using this
        rw [← hg']
        have hfmdef : (aset (setFurthest { g1 with nodeInfo := ni2 }
            (((follows.filter (fun x => x.2)).map (fun x => x.1)).foldl
              (pickBetter ni2) oldF)).nodeInfo (some t)
            { ti with source := some s, data := d }) =
            aset ni2 (some t) { ti with source := some s, data := d } := by
          rw [setFurthest_nodeInfo]
        have htihas2 : ahas ni2 (some t) = true := by
          rw [ahas, hti3]
          rfl
        refine ⟨?_, ?_, ?_, ?_, ?_⟩
        · show (setFurthest { g1 with nodeInfo := ni2 } _).heads = g1.heads
          rw [setFurthest_heads]
        · show (setFurthest { g1 with nodeInfo := ni2 } _).t = g1.t
          rw [setFurthest_t]
        · show (aset (setFurthest { g1 with nodeInfo := ni2 } _).nodeInfo
            (some t) _).map (·.1) = g1.nodeInfo.map (·.1)
          rw [hfmdef, keys_aset_of_ahas ni2 (some t) _ htihas2, hkeys2]
        · refine ⟨{ ti with source := some s, data := d }, ?_, rfl⟩
          show aget (aset (setFurthest { g1 with nodeInfo := ni2 } _).nodeInfo
            (some t) _) (some t) = _
          rw [hfmdef, aget_aset_self]
        · intro p hp hpne
          rw [hfmdef] at hp
          rcases mem_aset_elim ni2 hnd2 _ _ p hp with h1 | h1
          · exfalso
            apply hpne
            rw [h1]
          · obtain ⟨i1, hi1, _, hsrc, _, _⟩ := hcorr p h1.1
            exact ⟨i1, hi1, hsrc⟩

theorem sourceStep_headsInt (g : Graph) (s : String) (hInv : Inv g)
    (hH : HeadsOk g) :
    (sourceStep g s).heads.Nodup ∧
    ∀ x : String, x ∈ (sourceStep g s).heads ↔
      (ahas (sourceStep g s).nodeInfo (some x) = true ∧
       (∀ p ∈ (sourceStep g s).nodeInfo, p.2.source ≠ some x) ∧ x ≠ s) := by
  obtain ⟨hnd, hiff⟩ := hH
  by_cases hs : ahas g.nodeInfo (some s) = true
  · rw [sourceStep_pos g s hs]
    refine ⟨hnd.erase s, ?_⟩
    intro x
    show x ∈ g.heads.erase s ↔ _
    rw [hnd.mem_erase_iff]
    constructor
    · rintro ⟨hxs, hx⟩
      obtain ⟨h1, h2⟩ := (hiff x).mp hx
      exact ⟨h1, h2, hxs⟩
    · rintro ⟨h1, h2, hxs⟩
      exact ⟨hxs, (hiff x).mpr ⟨h1, h2⟩⟩
  · have hs' : ahas g.nodeInfo (some s) = false := by simpa using hs
    rw [sourceStep_neg g s hs']
    refine ⟨hnd, ?_⟩
    intro x
    show x ∈ g.heads ↔ _
    by_cases hxs : x = s
    · subst hxs
      constructor
      · intro hx
        exfalso
        have := ((hiff x).mp hx).1
        rw [this] at hs'
        cases hs'
      · rintro ⟨_, _, hxx⟩
        exact absurd rfl hxx
    · rw [hiff x]
      have hpres : ahas (aset g.nodeInfo (some s)
          { source := none, distance := 0, t := g.t, data := none })
          (some x) = ahas g.nodeInfo (some x) := by
        rw [ahas, ahas, aget_aset_ne _ _ _ _ (by simpa using hxs)]
      constructor
      · rintro ⟨h1, h2⟩
        refine ⟨by rw [hpres]; exact h1, ?_, hxs⟩
        intro p hp
        rcases mem_aset_elim g.nodeInfo hInv.nodupKeys _ _ p hp with h3 | h3
        · rw [h3]
          simp
        · exact h2 p h3.1
      · rintro ⟨h1, h2, _⟩
        refine ⟨by rw [hpres] at h1; exact h1, ?_⟩
        intro p hp
        refine h2 p ?_
        rw [aset_eq_append _ _ _ hs']
        exact List.mem_append_left _ hp

end DG

namespace DG

theorem mem_sadd (l : List String) (x y : String) :
    y ∈ sadd l x ↔ y ∈ l ∨ y = x := by
  unfold sadd
  split
  · rename_i hx
    constructor
    · exact Or.inl
    · rintro (h | h)
      · exact h
      · rw [h]
        exact hx
  · simp

theorem nodup_sadd (l : List String) (x : String) (h : l.Nodup) :
    (sadd l x).Nodup := by
  unfold sadd
  split
  · exact h
  · rename_i hx
    simp [List.nodup_append, h, hx]

theorem addEdge_headsOk (g : Graph) (s t : String) (d : Option String)
    (g' : Graph) (hInv : Inv g) (hH : HeadsOk g)
    (h : addEdge g s t d = (g', none)) : HeadsOk g' := by
  obtain ⟨hnd1, hint⟩ := sourceStep_headsInt g s hInv hH
  have hpre1 : PreInv (sourceStep g s) := sourceStep_preInv g s hInv.toPreInv
  have hs1 : ahas (sourceStep g s).nodeInfo (some s) = true :=
    sourceStep_has_source g s
  have huniq1 : ∀ p ∈ (sourceStep g s).nodeInfo,
      aget (sourceStep g s).nodeInfo p.1 = some p.2 :=
    fun p hp => aget_fst_eq_of_mem _ hpre1.nodupKeys p hp
  simp only [addEdge] at h
  split at h
  · simp at h
  · rename_i si hsi
    split at h
    · rename_i cti hcti
      split at h
      · simp at h
      · rename_i hok
        push_neg at hok
        have hsrcnone : cti.source = none := by
          by_contra hc
          have h1 := hpre1.srcDist (some t, cti)
            (mem_of_aget_eq_some _ _ _ hcti) hc
          simp only at h1
          omega
        obtain ⟨hheads', ht', hkeys', ⟨ti2, hti2, hti2src⟩, hothers⟩ :=
          addEdgeGraft_spec (sourceStep g s) g.furthestNode s t d
            (si.distance + 1) g' hpre1 (by rw [ahas, hcti]; rfl) h
        have hnd' : (g'.nodeInfo.map (·.1)).Nodup := by
          rw [hkeys']
          exact hpre1.nodupKeys
        have huniq' : ∀ p ∈ g'.nodeInfo, aget g'.nodeInfo p.1 = some p.2 :=
          fun p hp => aget_fst_eq_of_mem _ hnd' p hp
        refine ⟨by rw [hheads']; exact hnd1, ?_⟩
        intro x
        rw [hheads', hint x]
        have hpres : ahas g'.nodeInfo (some x) = true ↔
            ahas (sourceStep g s).nodeInfo (some x) = true := by
          rw [ahas_iff_mem_keys, ahas_iff_mem_keys, hkeys']
        constructor
        · rintro ⟨h1, h2, h3⟩
          refine ⟨hpres.mpr h1, ?_⟩
          intro p hp
          by_cases hpt : p.1 = some t
          · have : p.2 = ti2 := by
              have := huniq' p hp
              rw [hpt, hti2] at this
              injection this with he
              exact he.symm
            rw [this, hti2src]
            intro he
            injection he with he2
            exact h3 he2.symm
          · obtain ⟨i1, hi1, hsrc⟩ := hothers p hp hpt
            rw [hsrc]
            exact h2 (p.1, i1) (mem_of_aget_eq_some _ _ _ hi1)
        · rintro ⟨h1, h2⟩
          have h3 : x ≠ s := by
            intro he
            have := h2 (some t, ti2) (mem_of_aget_eq_some _ _ _ hti2)
            rw [hti2src, he] at this
            exact this rfl
          refine ⟨hpres.mp h1, ?_, h3⟩
          intro p hp
          by_cases hpt : p.1 = some t
          · have : p.2 = cti := by
              have := huniq1 p hp
              rw [hpt, hcti] at this
              injection this with he
              exact he.symm
            rw [this, hsrcnone]
            intro he
            cases he
          · have hpk : p.1 ∈ g'.nodeInfo.map (·.1) := by
              rw [hkeys']
              exact List.mem_map.mpr ⟨p, hp, rfl⟩
            obtain ⟨j, hj⟩ := Option.isSome_iff_exists.mp
              (aget_isSome_of_mem_keys _ _ hpk)
            obtain ⟨i1, hi1, hsrc⟩ :=
              hothers (p.1, j) (mem_of_aget_eq_some _ _ _ hj) hpt
            have hpi1 : i1 = p.2 := by
              rw [huniq1 p hp] at hi1
              injection hi1 with he
              exact he.symm
            have := h2 (p.1, j) (mem_of_aget_eq_some _ _ _ hj)
            rw [hsrc, hpi1] at this
            exact this
    · rename_i hti0
      have hst : s ≠ t := by
        intro he
        rw [← he] at hti0
        rw [ahas, hti0] at hs1
        cases hs1
      have htifalse : ahas (sourceStep g s).nodeInfo (some t) = false := by
        rw [ahas, hti0]
        rfl
      obtain ⟨hheads', hmap', ht'⟩ :=
        addEdgeNew_spec (sourceStep g s) g.furthestNode s t d
          (si.distance + 1) g' h
      set nt : Info := { source := some s, distance := si.distance + 1, t := (sourceStep g s).t, data := d } with hnt
      have hnd' : (g'.nodeInfo.map (·.1)).Nodup := by
        rw [hmap']
        exact nodup_keys_aset _ hpre1.nodupKeys _ _
      refine ⟨by rw [hheads']; exact nodup_sadd _ t hnd1, ?_⟩
      intro x
      rw [hheads', mem_sadd]
      by_cases hxt : x = t
      · subst hxt
        constructor
        · intro _
          constructor
          · rw [hmap', ahas, aget_aset_self]
            rfl
          · intro p hp
            rw [hmap'] at hp
            rcases mem_aset_elim _ hpre1.nodupKeys _ _ p hp with h1 | h1
            · rw [h1]
              show nt.source ≠ some x
              rw [hnt]
              intro he
              injection he with he2
              exact hst he2
            · intro he
              have := hpre1.srcPresent p h1.1 x he
              rw [this] at htifalse
              cases htifalse
        · intro _
          exact Or.inr rfl
      · have hxlift : (some x : Key) ≠ some t := by
          intro he
          injection he with he2
          exact hxt he2
        constructor
        · rintro (hx | hx)
          · obtain ⟨h1, h2, h3⟩ := (hint x).mp hx
            constructor
            · rw [hmap', ahas, aget_aset_ne _ _ _ _ hxlift]
              exact h1
            · intro p hp
              rw [hmap'] at hp
              rcases mem_aset_elim _ hpre1.nodupKeys _ _ p hp with h4 | h4
              · rw [h4]
                show nt.source ≠ some x
                rw [hnt]
                intro he
                injection he with he2
                exact h3 he2.symm
              · exact h2 p h4.1
          · exact absurd hx hxt
        · rintro ⟨h1, h2⟩
          left
          refine (hint x).mpr ⟨?_, ?_, ?_⟩
          · rw [hmap', ahas, aget_aset_ne _ _ _ _ hxlift] at h1
            exact h1
          · intro p hp
            refine h2 p ?_
            rw [hmap', aset_eq_append _ _ _ htifalse]
            exact List.mem_append_left _ hp
          · intro he
            have hta : (some t, nt) ∈ g'.nodeInfo := by
              rw [hmap']
              exact mem_of_aget_eq_some _ _ _ (aget_aset_self _ _ _)
            have := h2 (some t, nt) hta
            rw [show (some t, nt).2.source = some s from rfl, he] at this
            exact this rfl

end DG

namespace DG

theorem HeadsOk_init : HeadsOk Graph.init := by
  refine ⟨by simp [Graph.init], ?_⟩
  intro k
  constructor
  · intro hk
    simp [Graph.init] at hk
  · rintro ⟨h1, _⟩
    rw [ahas] at h1
    simp [Graph.init, aget] at h1

theorem runOps_headsOk : ∀ (ops : List Op) (g0 g : Graph),
    ops.all Op.isAdd = true → Inv g0 → HeadsOk g0 →
    runOps g0 ops = some g → HeadsOk g := by
  intro ops
  induction ops with
  | nil =>
    intro g0 g _ _ hh h
    simp only [runOps, Option.some.injEq] at h
    rw [← h]
    exact hh
  | cons op rest ih =>
    intro g0 g hadd h0 hh h
    rw [List.all_cons] at hadd
    have hop : op.isAdd = true := by
      cases hhh : op.isAdd
      · rw [hhh] at hadd
        simp at hadd
      · rfl
    have hrest : rest.all Op.isAdd = true := by
      cases hhh : rest.all Op.isAdd
      · rw [hhh] at hadd
        simp at hadd
      · rfl
    rw [runOps] at h
    cases op with
    | remove k => simp [Op.isAdd] at hop
    | add s t d =>
      cases hst : stepOp g0 (Op.add s t d) with
      | mk g1 e =>
        rw [hst] at h
        cases e with
        | none =>
          exact ih g1 g hrest (stepOp_inv g0 _ g1 h0 hst)
            (addEdge_headsOk g0 s t d g1 h0 hh hst) h
        | some err => simp at h

end DG

/-! ### Claim C8 -/

open DG in
/-- C8 counterexample: after addEdge(a, b) followed by removeNode(b), the
removed key b is still listed in `heads` although it is no longer present
in the graph — `removeNode` (and `prune`) never update `heads`. -/
theorem heads_counterexample :
    ((runOps Graph.init
        [Op.add "a" "b" none, Op.remove "b"]).getD Graph.init).heads = ["b"] ∧
    ahas ((runOps Graph.init
        [Op.add "a" "b" none, Op.remove "b"]).getD Graph.init).nodeInfo
      (some "b") = false := by
  decide

open DG in
/-- C8 (amended): after every successful sequence consisting of addEdge
calls only, `heads` is duplicate-free and holds exactly the present
non-sentinel keys that are no present node's source. -/
theorem heads_are_tips_add_only (ops : List Op) (g : Graph)
    (hadd : ops.all Op.isAdd = true)
    (h : runOps Graph.init ops = some g) : HeadsOk g :=
  runOps_headsOk ops Graph.init g hadd Inv_init HeadsOk_init h

open DG in
/-- Witness for the amended C8: a run with a fresh edge, a graft and a
split. -/
theorem heads_are_tips_add_only_witness :
    HeadsOk ((runOps Graph.init [Op.add "c" "d" none, Op.add "b" "c" none,
      Op.add "b" "e" none]).getD Graph.init) :=
  heads_are_tips_add_only
    [Op.add "c" "d" none, Op.add "b" "c" none, Op.add "b" "e" none] _
    (by decide) rfl

/-! ### Claims C2, C3, C10 -/

open DG in
/-- C2 (amended): an addEdge call whose target is known and is not a
zero-distance source-less path start throws the protocol-violation error
and leaves the target's entry, the furthest node and the event history
untouched — but the source-handling step has already committed: a known
source has been removed from heads, and an unknown source has been
inserted as a fresh path root, consuming one arrival-order tick. -/
theorem addEdge_reject_frame (g : Graph) (s t : String) (d : Option String)
    (ti : Info) (hti : aget g.nodeInfo (some t) = some ti)
    (hbad : truthySource ti.source = true ∨ ti.distance ≠ 0) :
    addEdge g s t d = (sourceStep g s, some JsErr.protocolViolation) ∧
    aget (sourceStep g s).nodeInfo (some t) = some ti ∧
    (sourceStep g s).furthestNode = g.furthestNode ∧
    (sourceStep g s).events = g.events ∧
    (ahas g.nodeInfo (some s) = true →
      sourceStep g s = { g with heads := g.heads.erase s }) ∧
    (ahas g.nodeInfo (some s) = false →
      sourceStep g s = { g with
        nodeInfo := aset g.nodeInfo (some s)
          { source := none, distance := 0, t := g.t, data := none }
        t := g.t + 1 }) := by
  have hti1 : aget (sourceStep g s).nodeInfo (some t) = some ti := by
    by_cases hsp : ahas g.nodeInfo (some s) = true
    · rw [sourceStep_pos g s hsp]
      exact hti
    · have hsp' : ahas g.nodeInfo (some s) = false := by simpa using hsp
      rw [sourceStep_neg g s hsp']
      show aget (aset _ _ _) _ = _
      by_cases hst : (some t : Key) = some s
      · exfalso
        rw [← hst, ahas, hti] at hsp'
        cases hsp'
      · rw [aget_aset_ne _ _ _ _ hst]
        exact hti
  obtain ⟨si, hsi⟩ := Option.isSome_iff_exists.mp (sourceStep_has_source g s)
  refine ⟨?_, hti1, sourceStep_furthest g s, sourceStep_events g s,
    fun hp => sourceStep_pos g s hp, fun hp => sourceStep_neg g s hp⟩
  simp only [addEdge, hsi, hti1]
  rw [if_pos hbad]

open DG in
/-- Witness for C2 (amended) at the concrete run a→b then c→b. -/
theorem addEdge_reject_frame_witness :
    aget (addEdge Graph.init "a" "b" none).1.nodeInfo (some "b") =
      some { source := some "a", distance := 1, t := 2, data := none } ∧
    addEdge (addEdge Graph.init "a" "b" none).1 "c" "b" none =
      (sourceStep (addEdge Graph.init "a" "b" none).1 "c",
        some JsErr.protocolViolation) :=
  ⟨by decide,
    (addEdge_reject_frame (addEdge Graph.init "a" "b" none).1 "c" "b" none
      { source := some "a", distance := 1, t := 2, data := none }
      (by decide) (by decide)).1⟩

open DG in
/-- C3: on the three-node graph a→b→c, prune(2) does not complete
normally — the `nodeInfo = this.nodeInfo = new Map(...)` statement assigns
the property and then throws a TypeError (assignment to a `const`) — and
it strands the survivor b with a `source` pointing at the removed node a,
because the source-clearing loop sits after the throwing statement. -/
theorem prune_throws_and_leaves_dangling_source :
    (prune ((runOps Graph.init
        [Op.add "a" "b" none, Op.add "b" "c" none]).getD Graph.init) 2).2 =
      some JsErr.constAssign ∧
    (prune ((runOps Graph.init
        [Op.add "a" "b" none, Op.add "b" "c" none]).getD Graph.init) 2).1.size
      = 2 ∧
    aget (prune ((runOps Graph.init
        [Op.add "a" "b" none, Op.add "b" "c" none]).getD Graph.init) 2).1.nodeInfo
      (some "b") =
      some { source := some "a", distance := 1, t := 2, data := none } ∧
    ahas (prune ((runOps Graph.init
        [Op.add "a" "b" none, Op.add "b" "c" none]).getD Graph.init) 2).1.nodeInfo
      (some "a") = false := by
  decide

open DG in
/-- C10: prune with maxSize at least the current size leaves the whole
observable state untouched — nodeInfo, heads, furthestNode, counter and
dispatched events are unchanged, so no advance event is emitted and the
computed scores are discarded. -/
theorem prune_noop_when_within_bound (g : Graph) (k : Int)
    (h : g.size ≤ k) : (prune g k).1 = g := by
  simp only [prune]
  split
  · rfl
  · rw [if_neg (show ¬ k < g.size by omega)]

open DG in
/-- Witness for C10 on the empty graph with maxSize 0. -/
theorem prune_noop_when_within_bound_witness :
    (prune Graph.init 0).1 = Graph.init :=
  prune_noop_when_within_bound Graph.init 0 (by decide)

/-! ### Claims C5, C6, C7 -/

open PG in
/-- C5: `PeerGroup.send` does not swallow a send failure.  With a first
peer whose data channel is still connecting and a second whose channel is
open, `peer.send` raises InvalidStateError, the exception escapes the
`forEach` to the caller, and the message reaches no peer at all — the
class doc instead promises the error is ignored and the remaining peers
still receive the message. -/
theorem send_failure_aborts_broadcast :
    PeerGroup.send
      { localId := "me"
        peers := [⟨"me", "p1", false, false, false, "stable",
            some ⟨"connecting"⟩, [], [], []⟩,
          ⟨"me", "p2", false, false, false, "stable",
            some ⟨"open"⟩, [], [], []⟩] } "hello" =
      ([], some JsErr.invalidState) := by
  rfl

open PG in
/-- C6: a processed envelope from an unknown but syntactically valid
sender does not create a PeerLink: `addPeer` begins by calling
`this.findPeer`, a method the class does not define (it defines
`getPeer`), so the call throws a TypeError that aborts the whole batch and
leaves the peer set unchanged. -/
theorem relay_batch_unknown_sender_crashes :
    handleSocketMessage
      { localId := "aaaaaaaa-aaaa-aaaa-aaaa-aaaaaaaaaaaa", peers := [] }
      [{ fromId := some "11111111-1111-1111-1111-111111111111", toId := none,
         candidate := none, description := none }]
      ⟨true, true, true⟩ = .error JsErr.typeError := by
  rfl

open PG in
/-- C7: politeness is exactly `localId > remoteId`, fixed at construction
and preserved by every negotiate call; on an offer collision the impolite
side only sets its ignore flag and changes nothing else (in particular it
applies no description and sends nothing), while the polite side — with
the awaited browser calls resolving — applies the remote offer and sends
back an answer. -/
theorem perfect_negotiation_collision (l r : String)
    (d0 : Option SessionDescription) (io0 : NegOracle)
    (pc : PeerConnection) (c : Option String) (dsc : SessionDescription)
    (io : NegOracle) :
    ((mkPeerConnection l r d0 io0).polite = decide (l > r)) ∧
    (∀ (pc' : PeerConnection) (c' : Option String)
        (d' : Option SessionDescription) (io' : NegOracle),
      (negotiate pc' c' d' io').polite = pc'.polite) ∧
    (dsc.type = "offer" →
      (pc.makingOffer = true ∨ pc.signalingState ≠ "stable") →
      pc.polite = false →
      negotiate pc c (some dsc) io = { pc with ignoreOffer := true }) ∧
    (dsc.type = "offer" →
      (pc.makingOffer = true ∨ pc.signalingState ≠ "stable") →
      pc.polite = true → io.setRemoteOk = true → io.setLocalOk = true →
      (negotiate pc c (some dsc) io).applied = pc.applied ++ [dsc] ∧
      (negotiate pc c (some dsc) io).sent =
        pc.sent ++ [(none, some { type := "answer", sdp := "" })]) := by
  have hpol : ∀ (pc' : PeerConnection) (c' : Option String)
      (d' : Option SessionDescription) (io' : NegOracle),
      (negotiate pc' c' d' io').polite = pc'.polite := by
    intro pc' c' d' io'
    cases d' with
    | some dd =>
      simp only [negotiate]
      split
      · rfl
      · split
        · rfl
        · split
          · split
            · rfl
            · rfl
          · rfl
    | none =>
      cases c' with
      | some cc =>
        simp only [negotiate]
        split
        · rfl
        · rfl
      | none => rfl
  refine ⟨?_, hpol, ?_, ?_⟩
  · cases d0 with
    | none => rfl
    | some dd =>
      simp only [mkPeerConnection]
      rw [hpol]
  · intro hoffer hcol hpolite
    have hcolb : (pc.makingOffer || (pc.signalingState != "stable")) = true := by
      rcases hcol with h1 | h1
      · rw [h1]
        rfl
      · rw [Bool.or_eq_true]
        right
        rw [bne_iff_ne]
        exact h1
    simp [negotiate, hpolite, hoffer, hcolb]
  · intro hoffer hcol hpolite hro hlo
    have hcolb : (pc.makingOffer || (pc.signalingState != "stable")) = true := by
      rcases hcol with h1 | h1
      · rw [h1]
        rfl
      · rw [Bool.or_eq_true]
        right
        rw [bne_iff_ne]
        exact h1
    constructor <;> simp [negotiate, hpolite, hoffer, hcolb, hro, hlo]

open PG in
/-- Witness for C7: ids "aaa" (impolite side) and "zzz" (polite side) in a
simultaneous-offer collision. -/
theorem perfect_negotiation_collision_witness :
    ((mkPeerConnection "zzz" "aaa" none ⟨true, true, true⟩).polite =
      decide ("zzz" > "aaa")) ∧
    (negotiate ⟨"aaa", "zzz", false, false, true, "stable", none, [], [], []⟩
        none (some ⟨"offer", "sdp0"⟩) ⟨true, true, true⟩ =
      { (⟨"aaa", "zzz", false, false, true, "stable", none, [], [], []⟩ :
          PeerConnection) with ignoreOffer := true }) ∧
    ((negotiate ⟨"zzz", "aaa", true, false, true, "stable", none, [], [], []⟩
        none (some ⟨"offer", "sdp0"⟩) ⟨true, true, true⟩).applied =
      [⟨"offer", "sdp0"⟩] ∧
     (negotiate ⟨"zzz", "aaa", true, false, true, "stable", none, [], [], []⟩
        none (some ⟨"offer", "sdp0"⟩) ⟨true, true, true⟩).sent =
      [(none, some ⟨"answer", ""⟩)]) :=
  ⟨(perfect_negotiation_collision "zzz" "aaa" none ⟨true, true, true⟩
      ⟨"aaa", "zzz", false, false, true, "stable", none, [], [], []⟩
      none ⟨"offer", "sdp0"⟩ ⟨true, true, true⟩).1,
    (perfect_negotiation_collision "aaa" "zzz" none ⟨true, true, true⟩
      ⟨"aaa", "zzz", false, false, true, "stable", none, [], [], []⟩
      none ⟨"offer", "sdp0"⟩ ⟨true, true, true⟩).2.2.1 rfl (Or.inl rfl) rfl,
    (perfect_negotiation_collision "aaa" "zzz" none ⟨true, true, true⟩
      ⟨"zzz", "aaa", true, false, true, "stable", none, [], [], []⟩
      none ⟨"offer", "sdp0"⟩ ⟨true, true, true⟩).2.2.2 rfl (Or.inl rfl)
      rfl rfl rfl⟩
